import Mathlib

/-! # Sliding-window rate limiter (`rate_limiter.go`, `notification.go`)

A shallow embedding of `RateLimiterImpl` and of the parts of its two
dependencies it calls: `sort.Search` from the Go standard library and
`Get` / `Set` / `DeleteExpired` / `OnEvicted` of `patrickmn/go-cache`.

Modelling conventions.

* An instant (`time.Time`, and the `UnixNano` reading go-cache takes) is a
  natural number of nanoseconds since the Unix epoch; one clock serves both
  the limiter and the cache.  A `time.Duration` is an integer number of
  nanoseconds; its negation wraps around at `math.MinInt64` as on an `int64`
  (`negDuration`), and instants are added to durations exactly, as `Time.Add`
  does.
* One call of `Allow` is instantaneous: every `time.Now()` it performs,
  directly or inside the cache, reads the same instant `now`.
* A `[]time.Time` is a `List Nat`; a Go map is a function into `Option`.
* The registry `mutexes` records which keys hold a mutex.  Calls are
  sequential, so the mutex taken at the start of `Allow` is released when it
  returns and only its presence in the registry is state.
-/

namespace Modak

/-- The struct `RateLimitRule`: `Limit` is a Go `int`, `Interval` a `time.Duration`. -/
structure RateLimitRule where
  Limit : Int
  Interval : Int
deriving DecidableEq

/-- The go-cache `Item`: the stored object (here always a `[]time.Time`) and its
expiration as a `UnixNano` reading, `0` standing for "never expires". -/
structure Item where
  Object : List Nat
  Expiration : Int
deriving DecidableEq

/-- The `items` map of a go-cache `Cache`. -/
abbrev Cache := String → Option Item

/-- The struct `RateLimiterImpl`: the cache, the mutex registry and the rule table. -/
structure RateLimiterImpl where
  cache : Cache
  mutexes : String → Bool
  Rules : String → Option RateLimitRule

/-- The Go method `time.Time.After`: `t.After(u)` reports whether `t` is strictly
later than `u`.  The cutoff `u` may lie before the epoch, hence an integer. -/
def After (t : Nat) (u : Int) : Bool := decide (u < (t : Int))

/-- The loop of `sort.Search`:
`for i < j { h := int(uint(i+j) >> 1); if !f(h) { i = h + 1 } else { j = h } }; return i`.
The first argument bounds the number of iterations. -/
def searchLoop (f : Nat → Bool) : Nat → Nat → Nat → Nat
  | 0, i, _ => i
  | fuel + 1, i, j =>
    if i < j then
      let h := (i + j) / 2
      if !f h then searchLoop f fuel (h + 1) j else searchLoop f fuel i h
    else i

/-- The Go function `sort.Search(n, f)`, which starts its loop at `i, j := 0, n`.
Every iteration shrinks `j - i`, so the loop has reached `i = j` after at most
`n` iterations: a larger bound gives the same result (`searchLoop_fuel`). -/
def Search (n : Nat) (f : Nat → Bool) : Nat := searchLoop f n 0 n

/-- Lines 66-77 of `Allow`: the binary search for the cutoff index and the copy
of the suffix that starts there. -/
def prune (timestamps : List Nat) (cutoff : Int) : List Nat :=
  let cutoffIdx := Search timestamps.length (fun i => After (timestamps.getD i 0) cutoff)
  if cutoffIdx > 0 then timestamps.drop cutoffIdx else timestamps

/-- The latest instant an `int64` clock can read: `math.MaxInt64` nanoseconds after
the epoch, the largest value of `time.Now().UnixNano()`. -/
def maxUnixNano : Int := 9223372036854775807

/-- The Go method `Time.UnixNano` on the instant `x` nanoseconds after the epoch: the
count as an `int64`, which wraps around outside the `int64` range. -/
def UnixNano (x : Int) : Int :=
  (x + 9223372036854775808) % 18446744073709551616 - 9223372036854775808

namespace gocache

/-- The go-cache method `Get`: the item is returned unless it is missing or
`item.Expiration > 0 && time.Now().UnixNano() > item.Expiration`. -/
def Get (c : Cache) (k : String) (now : Nat) : Option (List Nat) :=
  match c k with
  | none => none
  | some item =>
    if item.Expiration > 0 ∧ (now : Int) > item.Expiration then none else some item.Object

/-- The go-cache method `Set(k, x, d)` on a cache built by `gocache.New(-1, _)`:
`d == DefaultExpiration` (zero) is replaced by the default expiration `-1`, and
`e = time.Now().Add(d).UnixNano()` only when `d > 0`; otherwise `e` stays `0`.
The expiration is kept as the exact instant `now + d`.  go-cache stores the
`int64` reading `UnixNano` of that instant, which differs from it only when the
sum exceeds `math.MaxInt64`; the reading is then negative, an item that never
expires, and the exact sum is later than every reading of an `int64` clock, so
`Get` and `DeleteExpired` decide alike at every such reading
(`expired_UnixNano`). -/
def Set (c : Cache) (k : String) (x : List Nat) (d : Int) (now : Nat) : Cache :=
  let d := if d = 0 then -1 else d
  let e : Int := if d > 0 then (now : Int) + d else 0
  fun k' => if k' = k then some { Object := x, Expiration := e } else c k'

/-- The test go-cache's `DeleteExpired` applies to each item:
`v.Expiration > 0 && now > v.Expiration`. -/
def expired (item : Item) (now : Nat) : Bool :=
  decide (item.Expiration > 0 ∧ (now : Int) > item.Expiration)

end gocache

/-- The key of line 52: `recipient + "|" + notificationType`. -/
def key (recipient notificationType : String) : String :=
  recipient ++ "|" ++ notificationType

/-- The Go method `sync.Map.LoadOrStore(key, &sync.Mutex{})`, as far as the
registry is concerned: afterwards `key` holds a mutex. -/
def LoadOrStore (m : String → Bool) (k : String) : String → Bool :=
  fun k' => if k' = k then true else m k'

/-- The most negative `time.Duration`, `math.MinInt64` nanoseconds. -/
def minDuration : Int := -9223372036854775808

/-- The Go expression `-d` on a `time.Duration` (an `int64`): the negation wraps
around at `math.MinInt64`, which is its own negative, and is exact for every
other value. -/
def negDuration (d : Int) : Int := if d = minDuration then minDuration else -d

/-- The method `RateLimiterImpl.Allow`, called at instant `now`.  It returns the
limiter state after the call and the pair `(allowed, err)`; `err = none` is
Go's `nil`. -/
def Allow (r : RateLimiterImpl) (recipient notificationType : String) (now : Nat) :
    RateLimiterImpl × Bool × Option String :=
  match r.Rules notificationType with
  | none => (r, true, none)
  | some rule =>
    let k := key recipient notificationType
    let mutexes := LoadOrStore r.mutexes k
    let timestamps : List Nat :=
      match gocache.Get r.cache k now with
      | some v => v
      | none => []
    let cutoff : Int := (now : Int) + negDuration rule.Interval
    let timestamps := prune timestamps cutoff
    if (timestamps.length : Int) ≥ rule.Limit then
      ({ r with mutexes := mutexes,
                cache := gocache.Set r.cache k timestamps rule.Interval now }, false, none)
    else
      let timestamps := timestamps ++ [now]
      ({ r with mutexes := mutexes,
                cache := gocache.Set r.cache k timestamps rule.Interval now }, true, none)

/-- The go-cache method `DeleteExpired` run at instant `now` on the limiter's
cache, together with the `OnEvicted` hook installed by `NewRateLimiterImpl`:
every expired item is deleted and the hook deletes the mutex of its key. -/
def DeleteExpired (r : RateLimiterImpl) (now : Nat) : RateLimiterImpl :=
  { r with
    cache := fun k =>
      match r.cache k with
      | none => none
      | some item => if gocache.expired item now then none else some item
    mutexes := fun k =>
      match r.cache k with
      | none => r.mutexes k
      | some item => if gocache.expired item now then false else r.mutexes k }

/-- The constructor `NewRateLimiterImpl`: an empty cache and an empty registry. -/
def NewRateLimiterImpl (rules : String → Option RateLimitRule) : RateLimiterImpl :=
  { cache := fun _ => none, mutexes := fun _ => false, Rules := rules }

/-- What step 3 of `Allow` reads for key `k` at instant `now`: the record
`cache.Get` returns, or the empty record when the key is absent or expired. -/
def record (r : RateLimiterImpl) (k : String) (now : Nat) : List Nat :=
  (gocache.Get r.cache k now).getD []

/-- The raw `[]time.Time` held by the cache for key `k` (empty when there is no item). -/
def stored (r : RateLimiterImpl) (k : String) : List Nat :=
  match r.cache k with
  | none => []
  | some item => item.Object

/-- The interface `RateLimiter` of `rate_limiter.go`: any limiter, with a state of
its own, whose `Allow` returns `(allowed, err)`. -/
structure RateLimiter (σ : Type) where
  Allow : σ → String → String → σ × Bool × Option String

/-- What a call of `SendNotification` does besides changing the limiter: the error
it returns (`none` is `nil`), the records it hands to `slog.Error` (message,
error, recipient, type) and the lines it prints with `fmt.Printf`. -/
structure SendOutcome where
  err : Option String
  logged : List (String × String × String × String)
  printed : List String
deriving DecidableEq

/-- The method `NotificationServiceImpl.SendNotification` of `notification.go`, over
the limiter held in the field `rateLimiter`. -/
def SendNotification {σ : Type} (rateLimiter : RateLimiter σ) (s : σ)
    (recipient notificationType message : String) : σ × SendOutcome :=
  match rateLimiter.Allow s recipient notificationType with
  | (s', allowed, err) =>
    match err with
    | some e =>
      (s', { err := none,
             logged := [("error checking rate limit", e, recipient, notificationType)],
             printed := ["Sending " ++ notificationType ++ " notification to " ++ recipient
               ++ ": " ++ message ++ "\n"] })
    | none =>
      if !allowed then
        (s', { err := some ("rate limit exceeded for " ++ notificationType
                 ++ " notifications to " ++ recipient),
               logged := [], printed := [] })
      else
        (s', { err := none, logged := [],
               printed := ["Sending " ++ notificationType ++ " notification to " ++ recipient
                 ++ ": " ++ message ++ "\n"] })

/-- The in-memory limiter as a `RateLimiter`, every call made at instant `now`. -/
def inMemory (now : Nat) : RateLimiter RateLimiterImpl where
  Allow := fun r recipient notificationType => Allow r recipient notificationType now

/-- A limiter that always fails: it reports `allowed = false` with an error. -/
def failingLimiter : RateLimiter Unit where
  Allow := fun _ _ _ => ((), false, some "store unavailable")

/-! ## Definitions used by the statements -/

/-- One call `Allow(recipient, notificationType)` made at instant `now`. -/
structure Call where
  recipient : String
  notificationType : String
  now : Nat
deriving DecidableEq

/-- A sequence of calls to `Allow`, one after the other: the final state and the
`(allowed, err)` pair of each call, in order. -/
def runCalls : RateLimiterImpl → List Call → RateLimiterImpl × List (Bool × Option String)
  | r, [] => (r, [])
  | r, c :: cs =>
    ((runCalls (Allow r c.recipient c.notificationType c.now).1 cs).1,
      (Allow r c.recipient c.notificationType c.now).2 ::
        (runCalls (Allow r c.recipient c.notificationType c.now).1 cs).2)

/-- What happens to a limiter, in order of time: a call to `Allow`, or a sweep
`cache.DeleteExpired()` (run by the cache's janitor or by hand). -/
inductive Event where
  | allow (recipient notificationType : String) (now : Nat)
  | sweep (now : Nat)
deriving DecidableEq

/-- The instant of an event. -/
def Event.time : Event → Nat
  | Event.allow _ _ now => now
  | Event.sweep now => now

/-- The limiter state after an event. -/
def step (r : RateLimiterImpl) : Event → RateLimiterImpl
  | Event.allow recipient notificationType now => (Allow r recipient notificationType now).1
  | Event.sweep now => DeleteExpired r now

/-- The limiter state after a sequence of events. -/
def run : RateLimiterImpl → List Event → RateLimiterImpl
  | r, [] => r
  | r, e :: es => run (step r e) es

/-- The instants of the admitted calls for the pair `(X, A)` among a sequence of
events run from state `r`, in order. -/
def admissions (X A : String) : RateLimiterImpl → List Event → List Nat
  | _, [] => []
  | r, Event.sweep now :: es => admissions X A (DeleteExpired r now) es
  | r, Event.allow recipient notificationType now :: es =>
    if recipient = X ∧ notificationType = A
        ∧ (Allow r recipient notificationType now).2.1 = true then
      now :: admissions X A (Allow r recipient notificationType now).1 es
    else admissions X A (Allow r recipient notificationType now).1 es

/-- Whether an event respects the key of the pair `(X, A)`: a call that computes the
same key string `recipient + "|" + notificationType` is a call for category `A`
(and then for recipient `X`).  Sweeps respect every key. -/
def keyRespected (X A : String) : Event → Bool
  | Event.allow recipient notificationType _ =>
    decide (key recipient notificationType = key X A → notificationType = A)
  | Event.sweep _ => true

/-- Whether instant `a` lies in the half-open window `(t - interval, t]`. -/
def inWindow (t : Nat) (interval : Int) (a : Nat) : Bool :=
  decide ((t : Int) - interval < (a : Int) ∧ a ≤ t)

/-- The timestamps of a record that lie strictly after `now - interval`, in their
original order: the linear-filter reading of "still inside the window". -/
def retained (timestamps : List Nat) (now : Nat) (interval : Int) : List Nat :=
  timestamps.filter (fun t => decide ((now : Int) - interval < (t : Int)))

/-- Whether timestamp `t` is still within `interval` of `now`: `now - t < interval`. -/
def withinWindow (now : Nat) (interval : Int) (t : Nat) : Bool :=
  decide ((now : Int) - (t : Int) < interval)

/-- The invariant behind the quota bound, for key `k` under `rule`, where `past`
lists the instants of the calls admitted so far for the key's pair and `cur` is
the instant of the latest event: the stored record is sorted and not later than
`cur`, at every later instant the record the cache yields retains the same
timestamps as `past` does, and `past` meets the bound in every window. -/
structure WindowInv (rule : RateLimitRule) (k : String) (r : RateLimiterImpl)
    (past : List Nat) (cur : Nat) : Prop where
  sorted : (stored r k).Pairwise (· ≤ ·)
  le_cur : ∀ x ∈ stored r k, x ≤ cur
  past_le : ∀ x ∈ past, x ≤ cur
  agree : ∀ now, cur ≤ now →
    retained (record r k now) now rule.Interval = retained past now rule.Interval
  bound : ∀ t, ((past.countP (inWindow t rule.Interval) : Nat) : Int) ≤ rule.Limit

/-- Whether the cache item of key `k`, if there is one, has not expired at `now` or
expires no earlier than `interval` after each of its timestamps. -/
def covered (r : RateLimiterImpl) (k : String) (now : Nat) (interval : Int) : Bool :=
  match r.cache k with
  | none => true
  | some item =>
    !gocache.expired item now ||
      item.Object.all (fun t => decide ((t : Int) + interval ≤ item.Expiration))

/-- The invariant behind sortedness: every stored record is sorted in non-decreasing
order and holds no timestamp later than `cur`, the instant of the latest event. -/
def SortedInv (r : RateLimiterImpl) (cur : Nat) : Prop :=
  ∀ k, (stored r k).Pairwise (· ≤ ·) ∧ ∀ x ∈ stored r k, x ≤ cur

/-- The rule table of the tests: `"news"` is limited to 2 per 60 time units,
every other category is unlimited. -/
def newsRules : String → Option RateLimitRule :=
  fun c => if c = "news" then some { Limit := 2, Interval := 60 } else none

/-- A fresh limiter over `newsRules`. -/
def newsLimiter : RateLimiterImpl := NewRateLimiterImpl newsRules

/-- A rule table with two limited categories: `"news"` (2 per 60) and `"alerts"`
(1 per 30). -/
def twoRules : String → Option RateLimitRule :=
  fun c => if c = "news" then some { Limit := 2, Interval := 60 }
    else if c = "alerts" then some { Limit := 1, Interval := 30 } else none

/-- A fresh limiter over `twoRules`. -/
def twoLimiter : RateLimiterImpl := NewRateLimiterImpl twoRules

/-- A rule table with the limited categories `"c"` (1 per 100) and `"b|c"`
(5 per 1), whose keys collide for the recipients `"a|b"` and `"a"`. -/
def collidingRules : String → Option RateLimitRule :=
  fun c => if c = "c" then some { Limit := 1, Interval := 100 }
    else if c = "b|c" then some { Limit := 5, Interval := 1 } else none

/-- A rule table in which `"c"` has a zero limit (0 per 100) and `"b|c"` is limited
to 5 per 100; the keys of `("a|b", "c")` and `("a", "b|c")` collide. -/
def collidingZeroRules : String → Option RateLimitRule :=
  fun c => if c = "c" then some { Limit := 0, Interval := 100 }
    else if c = "b|c" then some { Limit := 5, Interval := 100 } else none

/-- A rule table with the limited categories `"c"` (3 per 100) and `"b|c"`
(5 per 50), whose keys collide for the recipients `"a|b"` and `"a"`. -/
def slidingCollisionRules : String → Option RateLimitRule :=
  fun c => if c = "c" then some { Limit := 3, Interval := 100 }
    else if c = "b|c" then some { Limit := 5, Interval := 50 } else none

/-- A rule table whose only rule has the most negative `Interval`: `"news"`, 1 per
`math.MinInt64`. -/
def minIntervalRules : String → Option RateLimitRule :=
  fun c => if c = "news" then some { Limit := 1, Interval := minDuration } else none

/-- A rule table whose only rule has a zero `Interval`: `"news"`, 2 per 0. -/
def zeroIntervalRules : String → Option RateLimitRule :=
  fun c => if c = "news" then some { Limit := 2, Interval := 0 } else none

/-- The limiter over `newsRules` after two calls for `(user1, news)` at instants
1000 and 1001: the quota of that key is used up. -/
def newsLimiterFull : RateLimiterImpl :=
  (runCalls newsLimiter [⟨"user1", "news", 1000⟩, ⟨"user1", "news", 1001⟩]).1

/-! ## The binary search of `sort.Search` and the prune step -/

theorem searchLoop_fuel (f : Nat → Bool) :
    ∀ fuel fuel' i j, j - i ≤ fuel → j - i ≤ fuel' →
      searchLoop f fuel i j = searchLoop f fuel' i j := by
  intro fuel
  induction fuel with
  | zero =>
    intro fuel' i j h _
    cases fuel' with
    | zero => rfl
    | succ fuel' =>
      have hij : ¬ i < j := by omega
      simp only [searchLoop, hij, if_false]
  | succ fuel ih =>
    intro fuel' i j h h'
    by_cases hij : i < j
    · cases fuel' with
      | zero => omega
      | succ fuel' =>
        simp only [searchLoop, hij, if_true]
        split
        · exact ih fuel' _ _ (by omega) (by omega)
        · exact ih fuel' _ _ (by omega) (by omega)
    · cases fuel' with
      | zero => simp only [searchLoop, hij, if_false]
      | succ fuel' => simp only [searchLoop, hij, if_false]

theorem searchLoop_spec (f : Nat → Bool) (n : Nat)
    (hmono : ∀ a b, a ≤ b → b < n → f a = true → f b = true) :
    ∀ fuel i j, j - i ≤ fuel → i ≤ j → j ≤ n →
      (∀ k, k < i → f k = false) → (∀ k, j ≤ k → k < n → f k = true) →
      searchLoop f fuel i j ≤ n ∧ (∀ k, k < searchLoop f fuel i j → f k = false) ∧
        (∀ k, searchLoop f fuel i j ≤ k → k < n → f k = true) := by
  intro fuel
  induction fuel with
  | zero =>
    intro i j hf hij hjn hlo hhi
    have : i = j := by omega
    subst this
    exact ⟨hjn, hlo, hhi⟩
  | succ fuel ih =>
    intro i j hf hij hjn hlo hhi
    unfold searchLoop
    by_cases hlt : i < j
    · simp only [hlt, if_true]
      have h1 : i ≤ (i + j) / 2 := by omega
      have h2 : (i + j) / 2 < j := by omega
      cases hfh : f ((i + j) / 2) with
      | false =>
        simp only [Bool.not_false, if_true]
        apply ih _ _ (by omega) (by omega) hjn _ hhi
        intro k hk
        cases hfk : f k with
        | false => rfl
        | true =>
          have := hmono k ((i + j) / 2) (by omega) (by omega) hfk
          rw [hfh] at this
          exact this.symm
      | true =>
        simp only [Bool.not_true, Bool.false_eq_true, if_false]
        apply ih _ _ (by omega) (by omega) (by omega) hlo
        intro k hk hkn
        exact hmono _ k hk hkn hfh
    · simp only [hlt, if_false]
      have : i = j := by omega
      subst this
      exact ⟨hjn, hlo, hhi⟩

theorem drop_eq_filter_of_split (p : Nat → Bool) :
    ∀ (l : List Nat) (r : Nat),
      (∀ k, k < r → k < l.length → p (l.getD k 0) = false) →
      (∀ k, r ≤ k → k < l.length → p (l.getD k 0) = true) →
      l.drop r = l.filter p := by
  intro l
  induction l with
  | nil => intro r _ _; simp
  | cons a l ih =>
    intro r hlo hhi
    cases r with
    | zero =>
      simp only [List.drop_zero]
      symm
      rw [List.filter_eq_self]
      intro x hx
      obtain ⟨k, hk, rfl⟩ := List.getElem_of_mem hx
      have := hhi k (Nat.zero_le _) hk
      rw [List.getD_eq_getElem _ _ hk] at this
      exact this
    | succ r =>
      have ha : p a = false := by
        have := hlo 0 (Nat.succ_pos _) (by simp)
        simpa using this
      simp only [List.drop_succ_cons, List.filter_cons, ha]
      simp only [Bool.false_eq_true, if_false]
      apply ih
      · intro k hk hkl
        have := hlo (k + 1) (by omega) (by simp; omega)
        simpa using this
      · intro k hk hkl
        have := hhi (k + 1) (by omega) (by simp; omega)
        simpa using this

theorem prune_eq_filter (timestamps : List Nat) (cutoff : Int)
    (hs : timestamps.Pairwise (· ≤ ·)) :
    prune timestamps cutoff = timestamps.filter (fun t => After t cutoff) := by
  have hmono : ∀ a b, a ≤ b → b < timestamps.length →
      After (timestamps.getD a 0) cutoff = true → After (timestamps.getD b 0) cutoff = true := by
    intro a b hab hb hfa
    have ha : a < timestamps.length := by omega
    have hle : timestamps.getD a 0 ≤ timestamps.getD b 0 := by
      rw [List.getD_eq_getElem _ _ ha, List.getD_eq_getElem _ _ hb]
      rcases Nat.lt_or_eq_of_le hab with h | h
      · exact (List.pairwise_iff_getElem.mp hs) a b ha hb h
      · subst h; exact le_refl _
    simp only [After, decide_eq_true_eq] at hfa ⊢
    omega
  have hspec := searchLoop_spec (fun i => After (timestamps.getD i 0) cutoff) timestamps.length
    hmono timestamps.length 0 timestamps.length (by omega) (by omega) (le_refl _)
    (by intro k hk; omega) (by intro k hk hkn; omega)
  obtain ⟨_, hlo, hhi⟩ := hspec
  have hdrop := drop_eq_filter_of_split (fun t => After t cutoff) timestamps
    (Search timestamps.length (fun i => After (timestamps.getD i 0) cutoff))
    (fun k hk _ => hlo k hk) (fun k hk hkl => hhi k hk hkl)
  unfold prune
  simp only
  split
  · exact hdrop
  · next h =>
    have h0 : Search timestamps.length (fun i => After (timestamps.getD i 0) cutoff) = 0 := by omega
    rw [h0] at hdrop
    simpa using hdrop

/-! ## One call of `Allow` -/

theorem negDuration_of_ne {d : Int} (h : d ≠ minDuration) : negDuration d = -d :=
  if_neg h

theorem negDuration_of_pos {d : Int} (h : 0 < d) : negDuration d = -d :=
  negDuration_of_ne (by unfold minDuration; omega)

theorem negDuration_zero : negDuration 0 = -0 :=
  negDuration_of_ne (by unfold minDuration; omega)

theorem Allow_of_rule (r : RateLimiterImpl) (recipient notificationType : String) (now : Nat)
    (rule : RateLimitRule) (h : r.Rules notificationType = some rule) :
    Allow r recipient notificationType now =
      if ((prune (record r (key recipient notificationType) now)
            ((now : Int) + negDuration rule.Interval)).length : Int) ≥ rule.Limit then
        ({ r with
            mutexes := LoadOrStore r.mutexes (key recipient notificationType),
            cache := gocache.Set r.cache (key recipient notificationType)
              (prune (record r (key recipient notificationType) now)
                ((now : Int) + negDuration rule.Interval)) rule.Interval now }, false, none)
      else
        ({ r with
            mutexes := LoadOrStore r.mutexes (key recipient notificationType),
            cache := gocache.Set r.cache (key recipient notificationType)
              (prune (record r (key recipient notificationType) now)
                ((now : Int) + negDuration rule.Interval) ++ [now]) rule.Interval now }, true, none) := by
  have hrec : (match gocache.Get r.cache (key recipient notificationType) now with
      | some v => v
      | none => []) = record r (key recipient notificationType) now := by
    unfold record
    cases gocache.Get r.cache (key recipient notificationType) now <;> rfl
  unfold Allow
  simp only [h, hrec]

theorem stored_Set (c : Cache) (k : String) (x : List Nat) (d : Int) (now : Nat)
    (m : String → Bool) (rules : String → Option RateLimitRule) :
    stored { cache := gocache.Set c k x d now, mutexes := m, Rules := rules } k = x := by
  simp [stored, gocache.Set]

theorem prune_eq_retained (timestamps : List Nat) (now : Nat) (interval : Int)
    (hs : timestamps.Pairwise (· ≤ ·)) :
    prune timestamps ((now : Int) + (-interval)) = retained timestamps now interval := by
  rw [prune_eq_filter _ _ hs]
  unfold retained
  congr 1

theorem retained_eq_filter_withinWindow (timestamps : List Nat) (now : Nat) (interval : Int) :
    retained timestamps now interval = timestamps.filter (withinWindow now interval) := by
  unfold retained
  congr 1
  funext t
  simp only [withinWindow, decide_eq_decide]
  omega

/-! ## Keys -/

theorem key_data (recipient notificationType : String) :
    (key recipient notificationType).data = recipient.data ++ '|' :: notificationType.data := by
  simp [key, String.data_append]

theorem append_sep_inj_left {α : Type} (a : α) :
    ∀ (l₁ l₂ m₁ m₂ : List α), a ∉ l₁ → a ∉ l₂ → l₁ ++ a :: m₁ = l₂ ++ a :: m₂ →
      l₁ = l₂ ∧ m₁ = m₂ := by
  intro l₁
  induction l₁ with
  | nil =>
    intro l₂ m₁ m₂ _ h₂ h
    cases l₂ with
    | nil => simpa using h
    | cons b l₂ =>
      simp only [List.nil_append, List.cons_append, List.cons.injEq] at h
      exact absurd (h.1 ▸ List.mem_cons_self _ _) h₂
  | cons b l₁ ih =>
    intro l₂ m₁ m₂ h₁ h₂ h
    cases l₂ with
    | nil =>
      simp only [List.nil_append, List.cons_append, List.cons.injEq] at h
      exact absurd (h.1 ▸ List.mem_cons_self _ _) h₁
    | cons c l₂ =>
      simp only [List.cons_append, List.cons.injEq] at h
      have := ih l₂ m₁ m₂ (fun hm => h₁ (List.mem_cons_of_mem _ hm))
        (fun hm => h₂ (List.mem_cons_of_mem _ hm)) h.2
      exact ⟨by rw [h.1, this.1], this.2⟩

theorem append_sep_inj_right {α : Type} (a : α) (l₁ l₂ m₁ m₂ : List α)
    (h₁ : a ∉ m₁) (h₂ : a ∉ m₂) (h : l₁ ++ a :: m₁ = l₂ ++ a :: m₂) :
    l₁ = l₂ ∧ m₁ = m₂ := by
  have hrev := congrArg List.reverse h
  simp only [List.reverse_append, List.reverse_cons, List.append_assoc,
    List.singleton_append] at hrev
  have := append_sep_inj_left a m₁.reverse m₂.reverse l₁.reverse l₂.reverse
    (by simpa using h₁) (by simpa using h₂) hrev
  exact ⟨List.reverse_injective this.2, List.reverse_injective this.1⟩

theorem key_same_recipient (recipient a b : String) :
    key recipient a = key recipient b ↔ a = b := by
  constructor
  · intro h
    have hd := congrArg String.data h
    rw [key_data, key_data] at hd
    have := List.append_cancel_left hd
    simp only [List.cons.injEq, true_and] at this
    exact String.ext this
  · intro h; rw [h]

/-! ## Frame lemmas -/

theorem Allow_Rules (r : RateLimiterImpl) (recipient notificationType : String) (now : Nat) :
    (Allow r recipient notificationType now).1.Rules = r.Rules := by
  cases hrule : r.Rules notificationType with
  | none => unfold Allow; rw [hrule]
  | some rule =>
    rw [Allow_of_rule r recipient notificationType now rule hrule]
    split <;> rfl

theorem Allow_frame (r : RateLimiterImpl) (recipient notificationType : String) (now : Nat)
    (k : String) (hk : k ≠ key recipient notificationType) :
    (Allow r recipient notificationType now).1.cache k = r.cache k ∧
    (Allow r recipient notificationType now).1.mutexes k = r.mutexes k := by
  cases hrule : r.Rules notificationType with
  | none => unfold Allow; rw [hrule]; exact ⟨rfl, rfl⟩
  | some rule =>
    rw [Allow_of_rule r recipient notificationType now rule hrule]
    split <;> simp [gocache.Set, LoadOrStore, hk]

theorem record_congr (r r' : RateLimiterImpl) (k : String) (now : Nat)
    (hc : r.cache k = r'.cache k) : record r k now = record r' k now := by
  simp only [record, gocache.Get, hc]

theorem Allow_local (r r' : RateLimiterImpl) (recipient notificationType : String) (now : Nat)
    (hR : r.Rules notificationType = r'.Rules notificationType)
    (hc : r.cache (key recipient notificationType) = r'.cache (key recipient notificationType))
    (hm : r.mutexes (key recipient notificationType)
      = r'.mutexes (key recipient notificationType)) :
    (Allow r recipient notificationType now).2 = (Allow r' recipient notificationType now).2 ∧
    (Allow r recipient notificationType now).1.cache (key recipient notificationType)
      = (Allow r' recipient notificationType now).1.cache (key recipient notificationType) ∧
    (Allow r recipient notificationType now).1.mutexes (key recipient notificationType)
      = (Allow r' recipient notificationType now).1.mutexes (key recipient notificationType) := by
  cases hrule : r.Rules notificationType with
  | none =>
    have hrule' : r'.Rules notificationType = none := by rw [← hR, hrule]
    unfold Allow
    rw [hrule, hrule']
    exact ⟨rfl, hc, hm⟩
  | some rule =>
    have hrule' : r'.Rules notificationType = some rule := by rw [← hR, hrule]
    rw [Allow_of_rule r recipient notificationType now rule hrule,
      Allow_of_rule r' recipient notificationType now rule hrule',
      record_congr r r' _ now hc]
    split <;> simp [gocache.Set, LoadOrStore]

theorem runCalls_Rules (r : RateLimiterImpl) (calls : List Call) :
    (runCalls r calls).1.Rules = r.Rules := by
  induction calls generalizing r with
  | nil => rfl
  | cons c cs ih =>
    simp only [runCalls]
    rw [ih, Allow_Rules]

theorem runCalls_frame (k : String) (calls : List Call)
    (hk : ∀ c ∈ calls, k ≠ key c.recipient c.notificationType) (r : RateLimiterImpl) :
    (runCalls r calls).1.cache k = r.cache k ∧ (runCalls r calls).1.mutexes k = r.mutexes k := by
  induction calls generalizing r with
  | nil => exact ⟨rfl, rfl⟩
  | cons c cs ih =>
    simp only [runCalls]
    have h1 := Allow_frame r c.recipient c.notificationType c.now k
      (hk c (List.mem_cons_self _ _))
    have h2 := ih (fun c hc => hk c (List.mem_cons_of_mem _ hc))
      (Allow r c.recipient c.notificationType c.now).1
    exact ⟨h2.1.trans h1.1, h2.2.trans h1.2⟩

theorem Allow_cache_key (r : RateLimiterImpl) (recipient notificationType : String) (now : Nat)
    (rule : RateLimitRule) (hrule : r.Rules notificationType = some rule)
    (hpos : 0 < rule.Interval) :
    (∃ ts, (Allow r recipient notificationType now).1.cache (key recipient notificationType)
      = some { Object := ts, Expiration := (now : Int) + rule.Interval }) ∧
    (Allow r recipient notificationType now).1.mutexes (key recipient notificationType)
      = true := by
  have hne : rule.Interval ≠ 0 := by omega
  rw [Allow_of_rule r recipient notificationType now rule hrule]
  split
  · exact ⟨⟨prune (record r (key recipient notificationType) now)
      ((now : Int) + negDuration rule.Interval), by simp [gocache.Set, hne, hpos]⟩,
      by simp [LoadOrStore]⟩
  · exact ⟨⟨prune (record r (key recipient notificationType) now)
      ((now : Int) + negDuration rule.Interval) ++ [now], by simp [gocache.Set, hne, hpos]⟩,
      by simp [LoadOrStore]⟩

/-! ## Calls for one key inside one window -/

theorem retained_eq_self (rec : List Nat) (now : Nat) (interval : Int)
    (h : ∀ x ∈ rec, (now : Int) - interval < (x : Int)) : retained rec now interval = rec := by
  unfold retained
  rw [List.filter_eq_self]
  intro x hx
  simpa using h x hx

theorem record_after_Set (c : Cache) (k : String) (x : List Nat) (d : Int) (now : Nat)
    (m : String → Bool) (rules : String → Option RateLimitRule) (t : Nat)
    (ht : (t : Int) ≤ (now : Int) + d) (hd : 0 < d) :
    record { cache := gocache.Set c k x d now, mutexes := m, Rules := rules } k t = x := by
  have hne : d ≠ 0 := by omega
  simp only [record, gocache.Get, gocache.Set, hne, hd, if_true, if_false]
  rw [if_neg (by omega)]
  rfl

theorem runCalls_window_aux (X A : String) (rule : RateLimitRule) (hT : 0 < rule.Interval) :
    ∀ (instants : List Nat) (r : RateLimiterImpl) (rec : List Nat),
      r.Rules A = some rule →
      stored r (key X A) = rec →
      (∀ t ∈ instants, record r (key X A) t = rec) →
      rec.Pairwise (· ≤ ·) →
      (∀ x ∈ rec, ∀ t ∈ instants, x ≤ t ∧ (t : Int) - rule.Interval < (x : Int)) →
      (rec.length : Int) ≤ rule.Limit →
      instants.Pairwise (· ≤ ·) →
      (∀ a ∈ instants, ∀ b ∈ instants, (b : Int) - (a : Int) < rule.Interval) →
      (runCalls r (instants.map (Call.mk X A))).2 =
        (List.range instants.length).map
          (fun i => (decide (((rec.length + i : Nat) : Int) < rule.Limit), none)) ∧
      (stored (runCalls r (instants.map (Call.mk X A))).1 (key X A)).length =
        min (rec.length + instants.length) rule.Limit.toNat := by
  intro instants
  induction instants with
  | nil =>
    intro r rec _ hst _ _ _ hlen _ _
    simp only [List.map_nil, runCalls, List.length_nil, List.range_zero, hst, true_and,
      Nat.add_zero]
    omega
  | cons t rest ih =>
    intro r rec hrule hst hrec hsorted hbounds hlen hmono hwin
    have hrt := hrec t (List.mem_cons_self _ _)
    have hret : retained rec t rule.Interval = rec :=
      retained_eq_self rec t rule.Interval (fun x hx => (hbounds x hx t (List.mem_cons_self _ _)).2)
    have hmono' := List.pairwise_cons.mp hmono
    have hwin' : ∀ a ∈ rest, ∀ b ∈ rest, (b : Int) - (a : Int) < rule.Interval :=
      fun a ha b hb => hwin a (List.mem_cons_of_mem _ ha) b (List.mem_cons_of_mem _ hb)
    have hAllow := Allow_of_rule r X A t rule hrule
    rw [negDuration_of_pos hT, hrt, prune_eq_retained _ _ _ hsorted, hret] at hAllow
    simp only [List.map_cons, runCalls, List.length_cons]
    by_cases hfull : (rec.length : Int) ≥ rule.Limit
    · rw [if_pos hfull] at hAllow
      have hih := ih (Allow r X A t).1 rec (by rw [Allow_Rules]; exact hrule)
        (by rw [hAllow]; exact stored_Set _ _ _ _ _ _ _)
        (by
          intro t' ht'
          rw [hAllow]
          apply record_after_Set _ _ _ _ _ _ _ _ _ hT
          have := hwin t (List.mem_cons_self _ _) t' (List.mem_cons_of_mem _ ht')
          omega)
        hsorted (fun x hx t' ht' => hbounds x hx t' (List.mem_cons_of_mem _ ht')) hlen
        hmono'.2 hwin'
      rw [hih.1, hih.2]
      constructor
      · rw [List.range_succ_eq_map, List.map_cons, List.map_map]
        congr 1
        · rw [hAllow]
          simp only [Nat.add_zero, Prod.mk.injEq, and_true]
          symm
          simp only [decide_eq_false_iff_not]
          omega
        · apply List.map_congr_left
          intro i _
          simp only [Function.comp, Prod.mk.injEq, and_true, decide_eq_decide]
          constructor <;> intro h <;> push_cast at h ⊢ <;> omega
      · omega
    · rw [if_neg hfull] at hAllow
      have hih := ih (Allow r X A t).1 (rec ++ [t]) (by rw [Allow_Rules]; exact hrule)
        (by rw [hAllow]; exact stored_Set _ _ _ _ _ _ _)
        (by
          intro t' ht'
          rw [hAllow]
          apply record_after_Set _ _ _ _ _ _ _ _ _ hT
          have := hwin t (List.mem_cons_self _ _) t' (List.mem_cons_of_mem _ ht')
          omega)
        (by
          rw [List.pairwise_append]
          refine ⟨hsorted, List.pairwise_singleton _ _, ?_⟩
          intro x hx y hy
          rw [List.mem_singleton] at hy
          subst hy
          exact (hbounds x hx y (List.mem_cons_self _ _)).1)
        (by
          intro x hx t' ht'
          rw [List.mem_append, List.mem_singleton] at hx
          rcases hx with hx | hx
          · exact hbounds x hx t' (List.mem_cons_of_mem _ ht')
          · subst hx
            have := hwin x (List.mem_cons_self _ _) t' (List.mem_cons_of_mem _ ht')
            exact ⟨hmono'.1 t' ht', by omega⟩)
        (by simp only [List.length_append, List.length_singleton]; push_cast; omega)
        hmono'.2 hwin'
      rw [hih.1, hih.2]
      constructor
      · rw [List.range_succ_eq_map, List.map_cons, List.map_map]
        congr 1
        · rw [hAllow]
          simp only [Nat.add_zero, Prod.mk.injEq, and_true]
          symm
          simp only [decide_eq_true_eq]
          omega
        · apply List.map_congr_left
          intro i _
          simp only [Function.comp, List.length_append, List.length_singleton, Prod.mk.injEq,
            and_true, decide_eq_decide]
          constructor <;> intro h <;> push_cast at h ⊢ <;> omega
      · simp only [List.length_append, List.length_singleton]
        omega

theorem sorted_span (instants : List Nat) (hmono : instants.Pairwise (· ≤ ·)) (d : Int)
    (hwin : ∀ t₁ ∈ instants.head?, ∀ tN ∈ instants.getLast?, (tN : Int) - (t₁ : Int) < d) :
    ∀ a ∈ instants, ∀ b ∈ instants, (b : Int) - (a : Int) < d := by
  intro a ha b hb
  cases instants with
  | nil => simp at ha
  | cons t rest =>
    have hne : t :: rest ≠ [] := List.cons_ne_nil _ _
    have hlast := List.getLast?_eq_getLast _ hne
    have hspan := hwin t (by simp) ((t :: rest).getLast hne) (by rw [hlast]; simp)
    have hfirst : t ≤ a := by
      rcases List.mem_cons.mp ha with h | h
      · exact le_of_eq h.symm
      · exact (List.pairwise_cons.mp hmono).1 a h
    have hend : b ≤ (t :: rest).getLast hne := by
      have hsplit := List.dropLast_append_getLast hne
      rw [← hsplit] at hb hmono
      rcases List.mem_append.mp hb with h | h
      · exact (List.pairwise_append.mp hmono).2.2 b h _ (List.mem_singleton_self _)
      · rw [List.mem_singleton] at h
        exact le_of_eq h
    omega

/-! ## The sliding-window invariant -/

theorem key_same_category (x X A : String) (h : key x A = key X A) : x = X := by
  have hd := congrArg String.data h
  rw [key_data, key_data] at hd
  exact String.ext (List.append_cancel_right hd)

theorem record_cases (r : RateLimiterImpl) (k : String) (now : Nat) :
    record r k now = stored r k ∨ record r k now = [] := by
  unfold record stored gocache.Get
  cases r.cache k with
  | none => left; rfl
  | some item =>
    simp only
    split
    · right; rfl
    · left; rfl

theorem stored_DeleteExpired (r : RateLimiterImpl) (k : String) (s : Nat) :
    stored (DeleteExpired r s) k = stored r k ∨ stored (DeleteExpired r s) k = [] := by
  cases hck : r.cache k with
  | none => left; simp [stored, DeleteExpired, hck]
  | some item =>
    cases hx : gocache.expired item s with
    | true => right; simp [stored, DeleteExpired, hck, hx]
    | false => left; simp [stored, DeleteExpired, hck, hx]

theorem record_DeleteExpired (r : RateLimiterImpl) (k : String) (s now : Nat) (h : s ≤ now) :
    record (DeleteExpired r s) k now = record r k now := by
  cases hck : r.cache k with
  | none => simp [record, gocache.Get, DeleteExpired, hck]
  | some item =>
    by_cases hx : item.Expiration > 0 ∧ (s : Int) > item.Expiration
    · have hx' : item.Expiration > 0 ∧ (now : Int) > item.Expiration := ⟨hx.1, by omega⟩
      have he : gocache.expired item s = true := by simp [gocache.expired, hx]
      simp only [record, gocache.Get, DeleteExpired, hck, he, if_true, hx']
      simp
    · have he : gocache.expired item s = false := by
        simp only [gocache.expired, decide_eq_false_iff_not]; exact hx
      simp only [record, gocache.Get, DeleteExpired, hck, he]
      simp

theorem retained_retained (l : List Nat) (s now : Nat) (interval : Int) (h : s ≤ now) :
    retained (retained l s interval) now interval = retained l now interval := by
  unfold retained
  rw [List.filter_filter]
  apply List.filter_congr
  intro x _
  by_cases h1 : (now : Int) - interval < (x : Int)
  · have h2 : (s : Int) - interval < (x : Int) := by omega
    simp [h1, h2]
  · simp [h1]

theorem retained_eq_nil (l : List Nat) (now : Nat) (interval : Int)
    (h : ∀ x ∈ l, (x : Int) ≤ (now : Int) - interval) : retained l now interval = [] := by
  unfold retained
  rw [List.filter_eq_nil_iff]
  intro x hx
  have := h x hx
  simp only [decide_eq_true_eq, not_lt]
  exact this

theorem retained_append (l₁ l₂ : List Nat) (now : Nat) (interval : Int) :
    retained (l₁ ++ l₂) now interval = retained l₁ now interval ++ retained l₂ now interval := by
  unfold retained
  exact List.filter_append _ _

theorem retained_sorted (l : List Nat) (now : Nat) (interval : Int)
    (h : l.Pairwise (· ≤ ·)) : (retained l now interval).Pairwise (· ≤ ·) :=
  h.sublist (List.filter_sublist _)

theorem mem_retained (l : List Nat) (now : Nat) (interval : Int) (x : Nat)
    (h : x ∈ retained l now interval) : x ∈ l :=
  (List.mem_filter.mp h).1

theorem stored_congr (r r' : RateLimiterImpl) (k : String) (hc : r.cache k = r'.cache k) :
    stored r k = stored r' k := by
  simp only [stored, hc]

theorem record_after_Set_expired (c : Cache) (k : String) (x : List Nat) (d : Int) (now : Nat)
    (m : String → Bool) (rules : String → Option RateLimitRule) (t : Nat)
    (ht : (now : Int) + d < (t : Int)) (hd : 0 < d) :
    record { cache := gocache.Set c k x d now, mutexes := m, Rules := rules } k t = [] := by
  have hne : d ≠ 0 := by omega
  simp only [record, gocache.Get, gocache.Set, hne, hd, if_true, if_false]
  rw [if_pos ⟨by omega, by omega⟩]
  rfl

theorem mem_record (r : RateLimiterImpl) (k : String) (now x : Nat)
    (h : x ∈ record r k now) : x ∈ stored r k := by
  rcases record_cases r k now with h' | h'
  · rw [h'] at h; exact h
  · rw [h'] at h; simp at h

theorem record_sorted (r : RateLimiterImpl) (k : String) (now : Nat)
    (h : (stored r k).Pairwise (· ≤ ·)) : (record r k now).Pairwise (· ≤ ·) := by
  rcases record_cases r k now with h' | h'
  · rw [h']; exact h
  · rw [h']; exact List.Pairwise.nil

theorem WindowInv.sweep {rule : RateLimitRule} {k : String} {r : RateLimiterImpl}
    {past : List Nat} {cur : Nat} (h : WindowInv rule k r past cur) (s : Nat) (hs : cur ≤ s) :
    WindowInv rule k (DeleteExpired r s) past s := by
  refine ⟨?_, ?_, ?_, ?_, h.bound⟩
  · rcases stored_DeleteExpired r k s with h' | h'
    · rw [h']; exact h.sorted
    · rw [h']; exact List.Pairwise.nil
  · intro x hx
    rcases stored_DeleteExpired r k s with h' | h'
    · rw [h'] at hx; exact le_trans (h.le_cur x hx) hs
    · rw [h'] at hx; simp at hx
  · intro x hx; exact le_trans (h.past_le x hx) hs
  · intro now hnow
    rw [record_DeleteExpired r k s now hnow]
    exact h.agree now (le_trans hs hnow)

theorem WindowInv.other {rule : RateLimitRule} {k : String} {r : RateLimiterImpl}
    {past : List Nat} {cur : Nat} (h : WindowInv rule k r past cur) (x a : String) (s : Nat)
    (hs : cur ≤ s) (hk : k ≠ key x a) : WindowInv rule k (Allow r x a s).1 past s := by
  have hc := (Allow_frame r x a s k hk).1
  have hst := stored_congr _ _ k hc
  refine ⟨?_, ?_, ?_, ?_, h.bound⟩
  · rw [hst]; exact h.sorted
  · intro y hy; rw [hst] at hy; exact le_trans (h.le_cur y hy) hs
  · intro y hy; exact le_trans (h.past_le y hy) hs
  · intro now hnow
    rw [record_congr _ _ k now hc]
    exact h.agree now (le_trans hs hnow)

theorem countP_inWindow_le (l : List Nat) (s t : Nat) (interval : Int) (hst : s ≤ t) :
    l.countP (inWindow t interval) ≤ (retained l s interval).length := by
  unfold retained
  rw [← List.countP_eq_length_filter]
  apply List.countP_mono_left
  intro x _ hx
  simp only [inWindow, decide_eq_true_eq] at hx ⊢
  omega

theorem WindowInv.call {rule : RateLimitRule} {X A : String} {r : RateLimiterImpl}
    {past : List Nat} {cur : Nat} (h : WindowInv rule (key X A) r past cur)
    (hrule : r.Rules A = some rule) (hT : 0 < rule.Interval) (s : Nat) (hs : cur ≤ s) :
    WindowInv rule (key X A) (Allow r X A s).1
      (if (Allow r X A s).2.1 = true then past ++ [s] else past) s := by
  have hsorted := record_sorted r (key X A) s h.sorted
  have hkept := h.agree s hs
  have hmem : ∀ x ∈ retained (record r (key X A) s) s rule.Interval, x ≤ s := fun x hx =>
    le_trans (h.le_cur x (mem_record r _ s x (mem_retained _ _ _ x hx))) hs
  have hpast : ∀ x ∈ past, x ≤ s := fun x hx => le_trans (h.past_le x hx) hs
  have hAllow := Allow_of_rule r X A s rule hrule
  rw [negDuration_of_pos hT, prune_eq_retained _ _ _ hsorted] at hAllow
  have hself : retained [s] s rule.Interval = [s] :=
    retained_eq_self [s] s rule.Interval (by
      intro x hx
      rw [List.mem_singleton] at hx
      subst hx
      omega)
  by_cases hfull : ((retained (record r (key X A) s) s rule.Interval).length : Int) ≥ rule.Limit
  · rw [if_pos hfull] at hAllow
    rw [hAllow]
    simp only [Bool.false_eq_true, if_false]
    refine ⟨?_, ?_, hpast, ?_, h.bound⟩
    · rw [stored_Set]; exact retained_sorted _ _ _ hsorted
    · rw [stored_Set]; exact hmem
    · intro now hnow
      by_cases hexp : (now : Int) ≤ (s : Int) + rule.Interval
      · rw [record_after_Set _ _ _ _ _ _ _ _ hexp hT, hkept]
        exact retained_retained past s now rule.Interval hnow
      · rw [record_after_Set_expired _ _ _ _ _ _ _ _ (by omega) hT]
        rw [retained_eq_nil past now rule.Interval (by
          intro x hx
          have := hpast x hx
          omega)]
        rfl
  · rw [if_neg hfull] at hAllow
    rw [hAllow]
    simp only [if_true]
    refine ⟨?_, ?_, ?_, ?_, ?_⟩
    · rw [stored_Set, List.pairwise_append]
      refine ⟨retained_sorted _ _ _ hsorted, List.pairwise_singleton _ _, ?_⟩
      intro x hx y hy
      rw [List.mem_singleton] at hy
      subst hy
      exact hmem x hx
    · rw [stored_Set]
      intro x hx
      rcases List.mem_append.mp hx with hx | hx
      · exact hmem x hx
      · rw [List.mem_singleton] at hx; exact le_of_eq hx
    · intro x hx
      rcases List.mem_append.mp hx with hx | hx
      · exact hpast x hx
      · rw [List.mem_singleton] at hx; exact le_of_eq hx
    · intro now hnow
      by_cases hexp : (now : Int) ≤ (s : Int) + rule.Interval
      · rw [record_after_Set _ _ _ _ _ _ _ _ hexp hT, retained_append, retained_append, hkept,
          retained_retained past s now rule.Interval hnow]
      · rw [record_after_Set_expired _ _ _ _ _ _ _ _ (by omega) hT]
        rw [retained_eq_nil (past ++ [s]) now rule.Interval (by
          intro x hx
          rcases List.mem_append.mp hx with hx | hx
          · have := hpast x hx
            omega
          · rw [List.mem_singleton] at hx
            subst hx
            omega)]
        rfl
    · intro t
      by_cases hst : s ≤ t
      · have h1 := countP_inWindow_le (past ++ [s]) s t rule.Interval hst
        rw [retained_append, hself, ← hkept, List.length_append, List.length_singleton] at h1
        omega
      · have h0 : inWindow t rule.Interval s = false := by
          simp only [inWindow, decide_eq_false_iff_not]
          omega
        rw [List.countP_append, List.countP_singleton, h0]
        simpa using h.bound t

theorem step_Rules (r : RateLimiterImpl) (e : Event) : (step r e).Rules = r.Rules := by
  cases e with
  | allow x a s => exact Allow_Rules r x a s
  | sweep s => rfl

theorem admissions_bound_aux (X A : String) (rule : RateLimitRule) (hT : 0 < rule.Interval) :
    ∀ (events : List Event) (r : RateLimiterImpl) (past : List Nat) (cur : Nat),
      r.Rules A = some rule →
      WindowInv rule (key X A) r past cur →
      (events.map Event.time).Pairwise (· ≤ ·) →
      (∀ e ∈ events, cur ≤ e.time) →
      (∀ e ∈ events, keyRespected X A e = true) →
      ∀ t, (((past ++ admissions X A r events).countP (inWindow t rule.Interval) : Nat) : Int)
        ≤ rule.Limit := by
  intro events
  induction events with
  | nil =>
    intro r past cur _ hinv _ _ _ t
    simpa [admissions] using hinv.bound t
  | cons e es ih =>
    intro r past cur hrule hinv hmono hcur hcoll t
    have hmono' : (∀ t' ∈ es.map Event.time, e.time ≤ t') ∧
        (es.map Event.time).Pairwise (· ≤ ·) := by
      rw [List.map_cons] at hmono
      exact List.pairwise_cons.mp hmono
    have hnext : ∀ e' ∈ es, e.time ≤ e'.time := fun e' he' =>
      hmono'.1 e'.time (List.mem_map_of_mem _ he')
    have hcoll' : ∀ e' ∈ es, keyRespected X A e' = true :=
      fun e' hm => hcoll e' (List.mem_cons_of_mem _ hm)
    have hhead := hcoll e (List.mem_cons_self _ _)
    have hce := hcur e (List.mem_cons_self _ _)
    cases e with
    | sweep s =>
      simp only [admissions]
      exact ih (DeleteExpired r s) past s hrule (hinv.sweep s hce) hmono'.2 hnext hcoll' t
    | allow x a s =>
      have hrule' : (Allow r x a s).1.Rules A = some rule := by rw [Allow_Rules]; exact hrule
      by_cases hk : key x a = key X A
      · have ha : a = A := by
          simp only [keyRespected, decide_eq_true_eq] at hhead
          exact hhead hk
        subst ha
        have hx : x = X := key_same_category x X a hk
        subst hx
        have hinv' := hinv.call hrule hT s hce
        have := ih (Allow r x a s).1 _ s hrule' hinv' hmono'.2 hnext hcoll' t
        simp only [admissions, true_and]
        by_cases hadm : (Allow r x a s).2.1 = true
        · simp only [hadm, if_true] at this ⊢
          simpa [List.append_assoc] using this
        · simp only [hadm, if_false] at this ⊢
          exact this
      · have hpair : ¬ (x = X ∧ a = A ∧ (Allow r x a s).2.1 = true) := by
          rintro ⟨h1, h2, _⟩
          exact hk (by rw [h1, h2])
        simp only [admissions, hpair, if_false]
        exact ih (Allow r x a s).1 past s hrule'
          (hinv.other x a s hce (fun h => hk h.symm)) hmono'.2 hnext hcoll' t

theorem WindowInv.fresh (rule : RateLimitRule) (k : String)
    (rules : String → Option RateLimitRule) (hL : 1 ≤ rule.Limit) :
    WindowInv rule k (NewRateLimiterImpl rules) [] 0 := by
  refine ⟨?_, ?_, ?_, ?_, ?_⟩
  · simp [stored, NewRateLimiterImpl]
  · simp [stored, NewRateLimiterImpl]
  · simp
  · intro now _; simp [record, gocache.Get, NewRateLimiterImpl]
  · intro t; simp only [List.countP_nil]; omega

/-! ## The cutoff index -/

theorem Search_split (timestamps : List Nat) (cutoff : Int)
    (hs : timestamps.Pairwise (· ≤ ·)) :
    Search timestamps.length (fun i => After (timestamps.getD i 0) cutoff) ≤ timestamps.length ∧
    (∀ k, k < Search timestamps.length (fun i => After (timestamps.getD i 0) cutoff) →
      After (timestamps.getD k 0) cutoff = false) ∧
    (∀ k, Search timestamps.length (fun i => After (timestamps.getD i 0) cutoff) ≤ k →
      k < timestamps.length → After (timestamps.getD k 0) cutoff = true) := by
  have hmono : ∀ a b, a ≤ b → b < timestamps.length →
      After (timestamps.getD a 0) cutoff = true → After (timestamps.getD b 0) cutoff = true := by
    intro a b hab hb hfa
    have ha : a < timestamps.length := by omega
    have hle : timestamps.getD a 0 ≤ timestamps.getD b 0 := by
      rw [List.getD_eq_getElem _ _ ha, List.getD_eq_getElem _ _ hb]
      rcases Nat.lt_or_eq_of_le hab with h | h
      · exact (List.pairwise_iff_getElem.mp hs) a b ha hb h
      · subst h; exact le_refl _
    simp only [After, decide_eq_true_eq] at hfa ⊢
    omega
  exact searchLoop_spec (fun i => After (timestamps.getD i 0) cutoff) timestamps.length
    hmono timestamps.length 0 timestamps.length (by omega) (by omega) (le_refl _)
    (by intro k hk; omega) (by intro k hk hkn; omega)

theorem prune_eq_drop (timestamps : List Nat) (cutoff : Int) :
    prune timestamps cutoff = timestamps.drop
      (Search timestamps.length (fun i => After (timestamps.getD i 0) cutoff)) := by
  unfold prune
  simp only
  split
  · rfl
  · next h =>
    have h0 : Search timestamps.length (fun i => After (timestamps.getD i 0) cutoff) = 0 := by
      omega
    rw [h0, List.drop_zero]

/-! ## Invariants of reachable states -/

theorem SortedInv.mono {r : RateLimiterImpl} {cur cur' : Nat} (h : SortedInv r cur)
    (hle : cur ≤ cur') : SortedInv r cur' :=
  fun k => ⟨(h k).1, fun x hx => le_trans ((h k).2 x hx) hle⟩

theorem SortedInv.initial (rules : String → Option RateLimitRule) (cur : Nat) :
    SortedInv (NewRateLimiterImpl rules) cur := by
  intro k
  simp [stored, NewRateLimiterImpl]

theorem prune_sorted (timestamps : List Nat) (cutoff : Int)
    (h : timestamps.Pairwise (· ≤ ·)) : (prune timestamps cutoff).Pairwise (· ≤ ·) := by
  rw [prune_eq_drop]
  exact h.sublist (List.drop_sublist _ _)

theorem mem_prune (timestamps : List Nat) (cutoff : Int) (x : Nat)
    (h : x ∈ prune timestamps cutoff) : x ∈ timestamps := by
  rw [prune_eq_drop] at h
  exact List.mem_of_mem_drop h

theorem SortedInv.after_call {r : RateLimiterImpl} {cur : Nat} (h : SortedInv r cur)
    (x a : String) (s : Nat) (hs : cur ≤ s) : SortedInv (Allow r x a s).1 s := by
  intro k
  by_cases hk : k = key x a
  · subst hk
    cases hrule : r.Rules a with
    | none =>
      have : (Allow r x a s).1 = r := by unfold Allow; rw [hrule]
      rw [this]
      exact (h.mono hs) _
    | some rule =>
      have hsorted := prune_sorted _ ((s : Int) + negDuration rule.Interval)
        (record_sorted r (key x a) s (h _).1)
      have hmem : ∀ y ∈ prune (record r (key x a) s) ((s : Int) + negDuration rule.Interval),
          y ≤ s := fun y hy =>
        le_trans ((h _).2 y (mem_record r _ s y (mem_prune _ _ y hy))) hs
      rw [Allow_of_rule r x a s rule hrule]
      split
      · rw [stored_Set]
        exact ⟨hsorted, hmem⟩
      · rw [stored_Set]
        constructor
        · rw [List.pairwise_append]
          refine ⟨hsorted, List.pairwise_singleton _ _, ?_⟩
          intro y hy z hz
          rw [List.mem_singleton] at hz
          subst hz
          exact hmem y hy
        · intro y hy
          rcases List.mem_append.mp hy with hy | hy
          · exact hmem y hy
          · rw [List.mem_singleton] at hy; exact le_of_eq hy
  · rw [stored_congr _ r k (Allow_frame r x a s k hk).1]
    exact (h.mono hs) k

theorem SortedInv.after_sweep {r : RateLimiterImpl} {cur : Nat} (h : SortedInv r cur)
    (s : Nat) (hs : cur ≤ s) : SortedInv (DeleteExpired r s) s := by
  intro k
  rcases stored_DeleteExpired r k s with h' | h'
  · rw [h']; exact (h.mono hs) k
  · rw [h']; simp

theorem SortedInv.after_step {r : RateLimiterImpl} {cur : Nat} (h : SortedInv r cur)
    (e : Event) (hs : cur ≤ e.time) : SortedInv (step r e) e.time := by
  cases e with
  | allow x a s => exact h.after_call x a s hs
  | sweep s => exact h.after_sweep s hs

theorem SortedInv.after_run :
    ∀ (events : List Event) (r : RateLimiterImpl) (cur bound : Nat), SortedInv r cur →
      (events.map Event.time).Pairwise (· ≤ ·) → (∀ e ∈ events, cur ≤ e.time) →
      (∀ e ∈ events, e.time ≤ bound) → cur ≤ bound → SortedInv (run r events) bound := by
  intro events
  induction events with
  | nil => intro r cur bound h _ _ _ hb; exact h.mono hb
  | cons e es ih =>
    intro r cur bound h hmono hcur hbound _
    have hmono' : (∀ t' ∈ es.map Event.time, e.time ≤ t') ∧
        (es.map Event.time).Pairwise (· ≤ ·) := by
      rw [List.map_cons] at hmono
      exact List.pairwise_cons.mp hmono
    exact ih (step r e) e.time bound (h.after_step e (hcur e (List.mem_cons_self _ _))) hmono'.2
      (fun e' he' => hmono'.1 e'.time (List.mem_map_of_mem _ he'))
      (fun e' he' => hbound e' (List.mem_cons_of_mem _ he'))
      (hbound e (List.mem_cons_self _ _))

theorem exists_time_bound (events : List Event) : ∃ bound, ∀ e ∈ events, e.time ≤ bound := by
  induction events with
  | nil => exact ⟨0, by simp⟩
  | cons e es ih =>
    obtain ⟨b, hb⟩ := ih
    refine ⟨max e.time b, ?_⟩
    intro e' he'
    rcases List.mem_cons.mp he' with h | h
    · rw [h]; exact le_max_left _ _
    · exact le_trans (hb e' h) (le_max_right _ _)

theorem coupled_step (r : RateLimiterImpl) (e : Event)
    (h : ∀ k, r.mutexes k = true ↔ r.cache k ≠ none) :
    ∀ k, (step r e).mutexes k = true ↔ (step r e).cache k ≠ none := by
  intro k
  cases e with
  | allow x a s =>
    simp only [step]
    by_cases hk : k = key x a
    · subst hk
      cases hrule : r.Rules a with
      | none =>
        have : (Allow r x a s).1 = r := by unfold Allow; rw [hrule]
        rw [this]
        exact h _
      | some rule =>
        rw [Allow_of_rule r x a s rule hrule]
        split <;> simp [LoadOrStore, gocache.Set]
    · obtain ⟨hc, hm⟩ := Allow_frame r x a s k hk
      rw [hc, hm]
      exact h k
  | sweep s =>
    simp only [step, DeleteExpired]
    cases hck : r.cache k with
    | none =>
      have := h k
      rw [hck] at this
      simpa using this
    | some item =>
      have := h k
      rw [hck] at this
      cases hx : gocache.expired item s with
      | true => simp [hx]
      | false => simpa [hx] using this

theorem coupled_run :
    ∀ (events : List Event) (r : RateLimiterImpl),
      (∀ k, r.mutexes k = true ↔ r.cache k ≠ none) →
      ∀ k, (run r events).mutexes k = true ↔ (run r events).cache k ≠ none := by
  intro events
  induction events with
  | nil => intro r h; exact h
  | cons e es ih => intro r h; exact ih (step r e) (coupled_step r e h)

theorem DeleteExpired_Rules (r : RateLimiterImpl) (s : Nat) :
    (DeleteExpired r s).Rules = r.Rules := rfl

theorem run_Rules (events : List Event) :
    ∀ r : RateLimiterImpl, (run r events).Rules = r.Rules := by
  induction events with
  | nil => intro r; rfl
  | cons e es ih => intro r; simp only [run]; rw [ih, step_Rules]

theorem record_of_none (r : RateLimiterImpl) (k : String) (now : Nat)
    (h : r.cache k = none) : record r k now = [] := by
  simp [record, gocache.Get, h]

theorem prune_nil (cutoff : Int) : prune [] cutoff = [] := by
  simp [prune]

theorem Allow_fresh_key (r : RateLimiterImpl) (X A : String) (now : Nat) (rule : RateLimitRule)
    (hrule : r.Rules A = some rule) (hL : 1 ≤ rule.Limit)
    (hrec : record r (key X A) now = []) :
    (Allow r X A now).2 = (true, none) ∧ stored (Allow r X A now).1 (key X A) = [now] := by
  rw [Allow_of_rule r X A now rule hrule, hrec, prune_nil]
  have hlt : ¬ ((([] : List Nat).length : Int) ≥ rule.Limit) := by
    simp only [List.length_nil]; omega
  rw [if_neg hlt]
  exact ⟨rfl, by rw [stored_Set]; rfl⟩

theorem Allow_local_item (r r' : RateLimiterImpl) (recipient notificationType : String)
    (now : Nat) (hR : r.Rules notificationType = r'.Rules notificationType)
    (hc : r.cache (key recipient notificationType) = r'.cache (key recipient notificationType)) :
    (Allow r recipient notificationType now).2 = (Allow r' recipient notificationType now).2 ∧
    (Allow r recipient notificationType now).1.cache (key recipient notificationType)
      = (Allow r' recipient notificationType now).1.cache (key recipient notificationType) := by
  cases hrule : r.Rules notificationType with
  | none =>
    have hrule' : r'.Rules notificationType = none := by rw [← hR, hrule]
    unfold Allow
    rw [hrule, hrule']
    exact ⟨rfl, hc⟩
  | some rule =>
    have hrule' : r'.Rules notificationType = some rule := by rw [← hR, hrule]
    rw [Allow_of_rule r recipient notificationType now rule hrule,
      Allow_of_rule r' recipient notificationType now rule hrule',
      record_congr r r' _ now hc]
    split <;> simp [gocache.Set]

theorem prune_length_le (timestamps : List Nat) (cutoff : Int) :
    (prune timestamps cutoff).length ≤ timestamps.length := by
  rw [prune_eq_drop, List.length_drop]
  omega

theorem record_length_le (r : RateLimiterImpl) (k : String) (now : Nat) :
    (record r k now).length ≤ (stored r k).length := by
  rcases record_cases r k now with h | h
  · rw [h]
  · rw [h]; simp

theorem stored_Allow_length (r : RateLimiterImpl) (X A : String) (now : Nat)
    (rule : RateLimitRule) (hrule : r.Rules A = some rule) (bound : Nat)
    (hb : (stored r (key X A)).length ≤ bound) (hL : rule.Limit ≤ (bound : Int)) :
    (stored (Allow r X A now).1 (key X A)).length ≤ bound := by
  have h1 := prune_length_le (record r (key X A) now)
    ((now : Int) + negDuration rule.Interval)
  have h2 := record_length_le r (key X A) now
  rw [Allow_of_rule r X A now rule hrule]
  split
  · rw [stored_Set]; omega
  · next h =>
    rw [stored_Set, List.length_append, List.length_singleton]
    omega

theorem stored_length_run (X A : String) (rule : RateLimitRule) (bound : Nat)
    (hL : rule.Limit ≤ (bound : Int)) :
    ∀ (events : List Event) (r : RateLimiterImpl), r.Rules A = some rule →
      (stored r (key X A)).length ≤ bound →
      (∀ e ∈ events, keyRespected X A e = true) →
      (stored (run r events) (key X A)).length ≤ bound := by
  intro events
  induction events with
  | nil => intro r _ h _; exact h
  | cons e es ih =>
    intro r hrule h hkeys
    have hrule' : (step r e).Rules A = some rule := by rw [step_Rules]; exact hrule
    have hhead := hkeys e (List.mem_cons_self _ _)
    refine ih (step r e) hrule' ?_ (fun e' he' => hkeys e' (List.mem_cons_of_mem _ he'))
    cases e with
    | sweep s =>
      simp only [step]
      rcases stored_DeleteExpired r (key X A) s with h' | h'
      · rw [h']; exact h
      · rw [h']; simp
    | allow x a s =>
      simp only [step]
      by_cases hk : key x a = key X A
      · have ha : a = A := by
          simp only [keyRespected, decide_eq_true_eq] at hhead
          exact hhead hk
        subst ha
        have hx : x = X := key_same_category x X a hk
        subst hx
        exact stored_Allow_length r x a s rule hrule bound h hL
      · rw [stored_congr _ r _ (Allow_frame r x a s (key X A) (fun h => hk h.symm)).1]
        exact h

theorem Allow_nonpositive (r : RateLimiterImpl) (X A : String) (now : Nat)
    (rule : RateLimitRule) (hrule : r.Rules A = some rule) (hL : rule.Limit ≤ 0) :
    Allow r X A now =
      ({ r with
          mutexes := LoadOrStore r.mutexes (key X A),
          cache := gocache.Set r.cache (key X A)
            (prune (record r (key X A) now) ((now : Int) + negDuration rule.Interval))
            rule.Interval now }, false, none) := by
  rw [Allow_of_rule r X A now rule hrule]
  have h : ((prune (record r (key X A) now)
      ((now : Int) + negDuration rule.Interval)).length : Int)
      ≥ rule.Limit := by omega
  rw [if_pos h]

/-! ## Expiry and the window -/

theorem expired_UnixNano (x : List Nat) (now : Nat) (d : Int) (t : Nat)
    (hnow : (now : Int) < 9223372036854775808) (hpos : 0 < d)
    (hd : d < 9223372036854775808) (ht : (t : Int) < 9223372036854775808) :
    gocache.expired { Object := x, Expiration := UnixNano ((now : Int) + d) } t
      = gocache.expired { Object := x, Expiration := (now : Int) + d } t := by
  simp only [gocache.expired, UnixNano, decide_eq_decide]
  omega

theorem covered_iff (r : RateLimiterImpl) (k : String) (now : Nat) (interval : Int) :
    covered r k now interval = true ↔
      ∀ item, r.cache k = some item → gocache.expired item now = false ∨
        ∀ t ∈ item.Object, (t : Int) + interval ≤ item.Expiration := by
  unfold covered
  cases hck : r.cache k with
  | none => simp
  | some item =>
    simp only [Bool.or_eq_true, Bool.not_eq_true', List.all_eq_true, decide_eq_true_eq,
      Option.some.injEq]
    constructor
    · intro h item' hi
      rw [← hi]
      exact h
    · intro h
      exact h item rfl

theorem retained_record (r : RateLimiterImpl) (k : String) (now : Nat) (interval : Int)
    (hcov : covered r k now interval = true) :
    retained (record r k now) now interval = retained (stored r k) now interval := by
  rw [covered_iff] at hcov
  cases hck : r.cache k with
  | none => simp [record, stored, gocache.Get, hck]
  | some item =>
    have hst : stored r k = item.Object := by simp [stored, hck]
    by_cases hexp : item.Expiration > 0 ∧ (now : Int) > item.Expiration
    · have hrec : record r k now = [] := by simp [record, gocache.Get, hck, hexp]
      have hdead : gocache.expired item now = true := by
        simp only [gocache.expired, decide_eq_true_eq]; exact hexp
      have hall : ∀ t ∈ item.Object, (t : Int) + interval ≤ item.Expiration := by
        rcases hcov item hck with h | h
        · rw [hdead] at h; exact absurd h Bool.noConfusion
        · exact h
      rw [hrec, hst, retained_eq_nil item.Object now interval (by
        intro x hx
        have := hall x hx
        omega)]
      rfl
    · have hrec : record r k now = item.Object := by
        simp [record, gocache.Get, hck, hexp]
      rw [hrec, hst]

theorem Allow_expiration (r : RateLimiterImpl) (X A : String) (now : Nat)
    (rule : RateLimitRule) (hrule : r.Rules A = some rule) (item : Item)
    (hitem : (Allow r X A now).1.cache (key X A) = some item) :
    item.Expiration = if 0 < rule.Interval then (now : Int) + rule.Interval else 0 := by
  rw [Allow_of_rule r X A now rule hrule] at hitem
  by_cases h0 : rule.Interval = 0
  · split at hitem <;> simp [gocache.Set, h0] at hitem <;> simp [← hitem, h0]
  · split at hitem <;> simp [gocache.Set, h0] at hitem <;> simp [← hitem]

theorem covered_step (X A : String) (rule : RateLimitRule) (r : RateLimiterImpl) (cur : Nat)
    (e : Event) (hrule : r.Rules A = some rule) (hinv : SortedInv r cur) (hs : cur ≤ e.time)
    (hkey : keyRespected X A e = true)
    (hcov : ∀ item, r.cache (key X A) = some item → item.Expiration ≤ 0 ∨
      ∀ t ∈ item.Object, (t : Int) + rule.Interval ≤ item.Expiration) :
    ∀ item, (step r e).cache (key X A) = some item → item.Expiration ≤ 0 ∨
      ∀ t ∈ item.Object, (t : Int) + rule.Interval ≤ item.Expiration := by
  intro item hitem
  cases e with
  | sweep s =>
    simp only [step, DeleteExpired] at hitem
    cases hck : r.cache (key X A) with
    | none => simp [hck] at hitem
    | some item' =>
      simp only [hck] at hitem
      split at hitem
      · exact absurd hitem (by simp)
      · simp only [Option.some.injEq] at hitem
        rw [← hitem]
        exact hcov item' hck
  | allow x a s =>
    simp only [step] at hitem
    by_cases hk : key x a = key X A
    · have ha : a = A := by
        simp only [keyRespected, decide_eq_true_eq] at hkey
        exact hkey hk
      subst ha
      have hx : x = X := key_same_category x X a hk
      subst hx
      have hexp := Allow_expiration r x a s rule hrule item hitem
      have hle := (hinv.after_call x a s hs (key x a)).2
      have hst : stored (Allow r x a s).1 (key x a) = item.Object := by
        simp [stored, hitem]
      rw [hst] at hle
      by_cases hpos : 0 < rule.Interval
      · right
        intro t ht
        rw [hexp, if_pos hpos]
        have := hle t ht
        simp only [Event.time] at this
        omega
      · left
        rw [hexp, if_neg hpos]
    · rw [(Allow_frame r x a s (key X A) (fun h => hk h.symm)).1] at hitem
      exact hcov item hitem

theorem covered_run (X A : String) (rule : RateLimitRule) :
    ∀ (events : List Event) (r : RateLimiterImpl) (cur : Nat), r.Rules A = some rule →
      SortedInv r cur → (events.map Event.time).Pairwise (· ≤ ·) →
      (∀ e ∈ events, cur ≤ e.time) → (∀ e ∈ events, keyRespected X A e = true) →
      (∀ item, r.cache (key X A) = some item → item.Expiration ≤ 0 ∨
        ∀ t ∈ item.Object, (t : Int) + rule.Interval ≤ item.Expiration) →
      ∀ item, (run r events).cache (key X A) = some item → item.Expiration ≤ 0 ∨
        ∀ t ∈ item.Object, (t : Int) + rule.Interval ≤ item.Expiration := by
  intro events
  induction events with
  | nil => intro r cur _ _ _ _ _ hcov; exact hcov
  | cons e es ih =>
    intro r cur hrule hinv hmono hcur hkeys hcov
    have hmono' : (∀ t' ∈ es.map Event.time, e.time ≤ t') ∧
        (es.map Event.time).Pairwise (· ≤ ·) := by
      rw [List.map_cons] at hmono
      exact List.pairwise_cons.mp hmono
    have hce := hcur e (List.mem_cons_self _ _)
    exact ih (step r e) e.time (by rw [step_Rules]; exact hrule) (hinv.after_step e hce)
      hmono'.2 (fun e' he' => hmono'.1 e'.time (List.mem_map_of_mem _ he'))
      (fun e' he' => hkeys e' (List.mem_cons_of_mem _ he'))
      (covered_step X A rule r cur e hrule hinv hce (hkeys e (List.mem_cons_self _ _)) hcov)

/-- In a state reached from an empty store by `Allow` calls and expiry sweeps at
non-decreasing instants, in which every call that computes the key of `(X, A)`
is a call for category `A`: at every instant the key's cache item has not
expired, or it expires no earlier than `Interval` after each of its
timestamps. -/
theorem run_item_covered (rules : String → Option RateLimitRule) (X A : String)
    (rule : RateLimitRule) (hrule : rules A = some rule) (events : List Event)
    (hmono : (events.map Event.time).Pairwise (· ≤ ·))
    (hkeys : ∀ e ∈ events, keyRespected X A e = true) (now : Nat) :
    covered (run (NewRateLimiterImpl rules) events) (key X A) now rule.Interval = true := by
  rw [covered_iff]
  intro item hitem
  rcases covered_run X A rule events (NewRateLimiterImpl rules) 0 hrule
    (SortedInv.initial rules 0) hmono (fun _ _ => Nat.zero_le _) hkeys
    (by intro item h; simp [NewRateLimiterImpl] at h) item hitem with h | h
  · left
    simp only [gocache.expired, decide_eq_false_iff_not]
    omega
  · exact Or.inr h

/-! ## The claims -/

/-- C1, as stated, fails in two ways.  Under `slidingCollisionRules` two calls for
`("a", "b|c")` at 1000 and 1049 leave the sorted record `[1000, 1049]`, expiring
at 1099, under the key of `("a|b", "c")`; the call for `("a|b", "c")` at 1101
finds the item expired, is admitted and stores `[1101]`, not the retained
timestamp `1049` followed by 1101.  Under `minIntervalRules`, whose `Interval`
is `math.MinInt64`, the record `[1000]` holds no timestamp after
`now - Interval` at `now = 1001`, yet `-Interval` wraps around, nothing is
pruned and the call is denied under `Limit = 1`. -/
theorem Allow_decision_fails :
    (slidingCollisionRules "c" = some { Limit := 3, Interval := 100 } ∧
      stored (run (NewRateLimiterImpl slidingCollisionRules)
        [Event.allow "a" "b|c" 1000, Event.allow "a" "b|c" 1049]) (key "a|b" "c")
        = [1000, 1049] ∧
      retained [1000, 1049] 1101 100 = [1049] ∧
      (Allow (run (NewRateLimiterImpl slidingCollisionRules)
        [Event.allow "a" "b|c" 1000, Event.allow "a" "b|c" 1049]) "a|b" "c" 1101).2.1 = true ∧
      stored (Allow (run (NewRateLimiterImpl slidingCollisionRules)
        [Event.allow "a" "b|c" 1000, Event.allow "a" "b|c" 1049]) "a|b" "c" 1101).1
        (key "a|b" "c") = [1101]) ∧
    (minIntervalRules "news" = some { Limit := 1, Interval := minDuration } ∧
      stored (run (NewRateLimiterImpl minIntervalRules) [Event.allow "user1" "news" 1000])
        (key "user1" "news") = [1000] ∧
      retained [1000] 1001 minDuration = [] ∧
      (Allow (run (NewRateLimiterImpl minIntervalRules) [Event.allow "user1" "news" 1000])
        "user1" "news" 1001).2.1 = false) := by
  decide

/-- C1 (amended): for a category with a rule whose `Interval` is not
`math.MinInt64`, when the record stored for the key is sorted ascending and its
cache item has not expired at `now`, or expires no earlier than `Interval`
after each of its timestamps (as every item does in a state reached without a
colliding pair, `run_item_covered`), `Allow` admits if and only if the number of
stored timestamps strictly after `now - Interval` is less than `Limit`, and on
admission the record stored afterwards is those timestamps, in order, followed
by `now`. -/
theorem Allow_decision (r : RateLimiterImpl) (recipient notificationType : String) (now : Nat)
    (rule : RateLimitRule) (hrule : r.Rules notificationType = some rule)
    (hI : rule.Interval ≠ minDuration)
    (hsorted : (stored r (key recipient notificationType)).Pairwise (· ≤ ·))
    (hcov : covered r (key recipient notificationType) now rule.Interval = true) :
    ((Allow r recipient notificationType now).2.1 = true ↔
      ((retained (stored r (key recipient notificationType)) now rule.Interval).length : Int)
        < rule.Limit) ∧
    ((Allow r recipient notificationType now).2.1 = true →
      stored (Allow r recipient notificationType now).1 (key recipient notificationType) =
        retained (stored r (key recipient notificationType)) now rule.Interval ++ [now]) := by
  rw [Allow_of_rule r recipient notificationType now rule hrule, negDuration_of_ne hI,
    prune_eq_retained _ _ _ (record_sorted r _ now hsorted),
    retained_record r _ now rule.Interval hcov]
  split
  · next h => simp only [Bool.false_eq_true, false_iff, not_lt, false_implies, and_true]; exact h
  · next h =>
    simp only [true_iff, true_implies, stored_Set, and_true]
    exact lt_of_not_ge h

/-- Witness for C1 (amended): the key `(user1, news)` holds `[1000, 1001]`, expiring
at 1061; at `now = 1060` the timestamp 1000 lies on the cutoff and is pruned,
one timestamp is retained, the call is admitted and `[1001, 1060]` is stored. -/
theorem Allow_decision_witness :
    ((Allow newsLimiterFull "user1" "news" 1060).2.1 = true ↔
      ((retained (stored newsLimiterFull (key "user1" "news")) 1060 60).length : Int) < 2) ∧
    ((Allow newsLimiterFull "user1" "news" 1060).2.1 = true →
      stored (Allow newsLimiterFull "user1" "news" 1060).1 (key "user1" "news") =
        retained (stored newsLimiterFull (key "user1" "news")) 1060 60 ++ [1060]) ∧
    retained (stored newsLimiterFull (key "user1" "news")) 1060 60 = [1001] ∧
    (Allow newsLimiterFull "user1" "news" 1060).2.1 = true :=
  ⟨(Allow_decision newsLimiterFull "user1" "news" 1060 { Limit := 2, Interval := 60 }
      (by decide) (by decide) (by decide) (by decide)).1,
    (Allow_decision newsLimiterFull "user1" "news" 1060 { Limit := 2, Interval := 60 }
      (by decide) (by decide) (by decide) (by decide)).2,
    by decide, by decide⟩

/-- C2 (window correctness from a fresh key): under a rule `{Limit, Interval}` with
`Limit >= 1` and `Interval > 0`, starting from a state with no cache item for the
key, for calls made at non-decreasing instants whose last is less than `Interval`
after the first, the `i`-th call (counted from 1) is admitted exactly when
`i <= Limit`, every call returns a nil error, and the record stored after the
last call has length `min N Limit`. -/
theorem runCalls_fresh_window (r : RateLimiterImpl) (X A : String) (rule : RateLimitRule)
    (hrule : r.Rules A = some rule) (hL : 1 ≤ rule.Limit) (hT : 0 < rule.Interval)
    (hfresh : r.cache (key X A) = none) (instants : List Nat)
    (hmono : instants.Pairwise (· ≤ ·))
    (hwin : ∀ t₁ ∈ instants.head?, ∀ tN ∈ instants.getLast?,
      (tN : Int) - (t₁ : Int) < rule.Interval) :
    (runCalls r (instants.map (Call.mk X A))).2 =
      (List.range instants.length).map
        (fun i => (decide (((i + 1 : Nat) : Int) ≤ rule.Limit), none)) ∧
    (stored (runCalls r (instants.map (Call.mk X A))).1 (key X A)).length =
      min instants.length rule.Limit.toNat := by
  have haux := runCalls_window_aux X A rule hT instants r [] hrule
    (by simp [stored, hfresh])
    (by intro t _; simp [record, gocache.Get, hfresh])
    List.Pairwise.nil (by intro x hx; simp at hx) (by simp only [List.length_nil]; omega)
    hmono (sorted_span instants hmono rule.Interval hwin)
  simp only [List.length_nil, Nat.zero_add] at haux
  refine ⟨?_, haux.2⟩
  rw [haux.1]
  apply List.map_congr_left
  intro i _
  simp only [Prod.mk.injEq, and_true, decide_eq_decide]
  constructor <;> intro h <;> push_cast at h ⊢ <;> omega

/-- Witness for C2: the scenario of `TestBasicRateLimiter`, three calls for
`(user1, news)` at one instant under `{Limit: 2, Interval: 60}`. -/
theorem runCalls_fresh_window_witness :
    (runCalls newsLimiter ([1000, 1000, 1000].map (Call.mk "user1" "news"))).2 =
      [(true, none), (true, none), (false, none)] ∧
    (stored (runCalls newsLimiter ([1000, 1000, 1000].map (Call.mk "user1" "news"))).1
      (key "user1" "news")).length = 2 :=
  runCalls_fresh_window newsLimiter "user1" "news" ⟨2, 60⟩ (by decide) (by decide) (by decide)
    (by decide) [1000, 1000, 1000] (by decide) (by decide)

/-- C3, as stated, fails because two pairs can share a key: under `collidingRules`
the calls `Allow("a|b", "c")` at 1000, `Allow("a", "b|c")` at 1010 and
`Allow("a|b", "c")` at 1020 are made at non-decreasing instants from an empty
store, `"c"` has the rule `{Limit: 1, Interval: 100}`, and both calls for
`("a|b", "c")` are admitted although they lie in the window `(920, 1020]`. -/
theorem admissions_exceed_limit_on_collision :
    collidingRules "c" = some { Limit := 1, Interval := 100 } ∧
    ([Event.allow "a|b" "c" 1000, Event.allow "a" "b|c" 1010,
      Event.allow "a|b" "c" 1020].map Event.time).Pairwise (· ≤ ·) ∧
    admissions "a|b" "c" (NewRateLimiterImpl collidingRules)
      [Event.allow "a|b" "c" 1000, Event.allow "a" "b|c" 1010, Event.allow "a|b" "c" 1020]
      = [1000, 1020] ∧
    (admissions "a|b" "c" (NewRateLimiterImpl collidingRules)
      [Event.allow "a|b" "c" 1000, Event.allow "a" "b|c" 1010,
        Event.allow "a|b" "c" 1020]).countP (inWindow 1020 100) = 2 := by
  decide

/-- C3 (amended): under a rule `{Limit, Interval}` with `Limit >= 1` and
`Interval > 0` for category `A`, for every sequence of `Allow` calls and expiry
sweeps at non-decreasing instants from an empty store in which every call that
computes the key of `(X, A)` is a call for category `A`, and for every instant
`t`, at most `Limit` admitted calls for `(X, A)` have their instant in the
window `(t - Interval, t]`. -/
theorem admissions_window_bound (rules : String → Option RateLimitRule) (X A : String)
    (rule : RateLimitRule) (hrule : rules A = some rule) (hL : 1 ≤ rule.Limit)
    (hT : 0 < rule.Interval) (events : List Event)
    (hmono : (events.map Event.time).Pairwise (· ≤ ·))
    (hcoll : ∀ e ∈ events, keyRespected X A e = true) (t : Nat) :
    (((admissions X A (NewRateLimiterImpl rules) events).countP
      (inWindow t rule.Interval) : Nat) : Int) ≤ rule.Limit := by
  have := admissions_bound_aux X A rule hT events (NewRateLimiterImpl rules) [] 0 hrule
    (WindowInv.fresh rule (key X A) rules hL) hmono (fun e _ => Nat.zero_le _) hcoll t
  simpa using this

/-- Witness for C3 (amended): calls for `(user1, news)` and `(user1, alerts)` with a
sweep in between, under `twoRules`; the window is `(1001, 1061]`. -/
theorem admissions_window_bound_witness :
    (((admissions "user1" "news" (NewRateLimiterImpl twoRules)
      [Event.allow "user1" "news" 1000, Event.allow "user1" "alerts" 1005,
        Event.allow "user1" "news" 1010, Event.allow "user1" "news" 1020, Event.sweep 1030,
        Event.allow "user1" "news" 1061]).countP (inWindow 1061 60) : Nat) : Int) ≤ 2 :=
  admissions_window_bound twoRules "user1" "news" ⟨2, 60⟩ (by decide) (by decide) (by decide)
    [Event.allow "user1" "news" 1000, Event.allow "user1" "alerts" 1005,
      Event.allow "user1" "news" 1010, Event.allow "user1" "news" 1020, Event.sweep 1030,
      Event.allow "user1" "news" 1061] (by decide) (by decide) 1061

/-- C4, as stated, fails in two ways.  Under `slidingCollisionRules` two calls for
`("a", "b|c")` at 1000 and 1049 leave the sorted record `[1000, 1049]`, expiring
at 1099, under the key of `("a|b", "c")`, whose rule is `{Limit: 3,
Interval: 100}`; the call for `("a|b", "c")` at 1101, more than 100 after 1000,
finds the item expired and keeps none of the old timestamps, although 1049 is
still within 100 of 1101.  Under `minIntervalRules`, whose `Interval` is
`math.MinInt64`, the key holds `[1000]` under `Limit = 1` and the call at 1001 is
more than `Interval` after 1000, yet `-Interval` wraps around, nothing is
pruned and the call is denied. -/
theorem Allow_window_slide_fails :
    (slidingCollisionRules "c" = some { Limit := 3, Interval := 100 } ∧
      stored (run (NewRateLimiterImpl slidingCollisionRules)
        [Event.allow "a" "b|c" 1000, Event.allow "a" "b|c" 1049]) (key "a|b" "c")
        = [1000, 1049] ∧
      ((1101 : Nat) : Int) - ((1000 : Nat) : Int) > 100 ∧
      ([1000, 1049] : List Nat).countP (withinWindow 1101 100) = 1 ∧
      stored (Allow (run (NewRateLimiterImpl slidingCollisionRules)
        [Event.allow "a" "b|c" 1000, Event.allow "a" "b|c" 1049]) "a|b" "c" 1101).1
        (key "a|b" "c") = [1101]) ∧
    (minIntervalRules "news" = some { Limit := 1, Interval := minDuration } ∧
      stored (run (NewRateLimiterImpl minIntervalRules) [Event.allow "user1" "news" 1000])
        (key "user1" "news") = [1000] ∧
      ((1001 : Nat) : Int) - ((1000 : Nat) : Int) > minDuration ∧
      (Allow (run (NewRateLimiterImpl minIntervalRules) [Event.allow "user1" "news" 1000])
        "user1" "news" 1001).2.1 = false) := by
  decide

/-- C4 (amended): for a category with a rule whose `Interval` is not
`math.MinInt64`, let the record stored for the key be sorted ascending, non-empty
(`oldest :: rest`) and of length at most `Limit`, and let its cache item have
not expired at `now`, or expire no earlier than `Interval` after each of its
timestamps (as every item does in a state reached without a colliding pair,
`run_item_covered`).  Then a call at an instant `now` more than `Interval` after
`oldest` is admitted, the stored record is the old timestamps `t` with
`now - t < Interval` followed by `now`, and so the number of old timestamps kept
equals the number of old timestamps with `now - t < Interval`.  (`Limit >= 1`
follows from the bound on the non-empty record.) -/
theorem Allow_window_slide (r : RateLimiterImpl) (recipient notificationType : String)
    (now : Nat) (rule : RateLimitRule) (oldest : Nat) (rest : List Nat)
    (hrule : r.Rules notificationType = some rule)
    (hI : rule.Interval ≠ minDuration)
    (hrec : stored r (key recipient notificationType) = oldest :: rest)
    (hcov : covered r (key recipient notificationType) now rule.Interval = true)
    (hsorted : (oldest :: rest).Pairwise (· ≤ ·))
    (hlen : ((oldest :: rest).length : Int) ≤ rule.Limit)
    (hlate : (now : Int) - (oldest : Int) > rule.Interval) :
    (Allow r recipient notificationType now).2.1 = true ∧
    stored (Allow r recipient notificationType now).1 (key recipient notificationType) =
      (oldest :: rest).filter (withinWindow now rule.Interval) ++ [now] ∧
    (stored (Allow r recipient notificationType now).1 (key recipient notificationType)).length
      = (oldest :: rest).countP (withinWindow now rule.Interval) + 1 := by
  have hs : (record r (key recipient notificationType) now).Pairwise (· ≤ ·) :=
    record_sorted r _ now (by rw [hrec]; exact hsorted)
  have hold : withinWindow now rule.Interval oldest = false := by
    simp only [withinWindow, decide_eq_false_iff_not]
    omega
  have hshort : ((oldest :: rest).filter (withinWindow now rule.Interval)).length
      ≤ rest.length := by
    rw [List.filter_cons_of_neg (by simp [hold])]
    exact List.length_filter_le _ _
  rw [Allow_of_rule r recipient notificationType now rule hrule, negDuration_of_ne hI,
    prune_eq_retained _ _ _ hs, retained_record r _ now rule.Interval hcov, hrec,
    retained_eq_filter_withinWindow]
  have hlt : ¬ ((((oldest :: rest).filter (withinWindow now rule.Interval)).length : Int)
      ≥ rule.Limit) := by
    simp only [List.length_cons, Nat.cast_add, Nat.cast_one] at hlen
    omega
  rw [if_neg hlt]
  refine ⟨rfl, by simp only [stored_Set], ?_⟩
  simp only [stored_Set, List.length_append, List.length_singleton,
    List.countP_eq_length_filter]

/-- Witness for C4 (amended): the scenario of `TestRateLimiterPrune`.  After calls
for `(user1, news)` at 1000 and 1059 the key is full; the call at 1069, more
than 60 after 1000, is admitted, 1000 is pruned and 1059 is kept, so the record
stored is `[1059, 1069]`.  The condition on the item's expiry comes from
`run_item_covered`. -/
theorem Allow_window_slide_witness :
    (Allow (run (NewRateLimiterImpl newsRules)
      [Event.allow "user1" "news" 1000, Event.allow "user1" "news" 1059])
      "user1" "news" 1069).2.1 = true ∧
    stored (Allow (run (NewRateLimiterImpl newsRules)
      [Event.allow "user1" "news" 1000, Event.allow "user1" "news" 1059])
      "user1" "news" 1069).1 (key "user1" "news") =
      ([1000, 1059] : List Nat).filter (withinWindow 1069 60) ++ [1069] ∧
    (stored (Allow (run (NewRateLimiterImpl newsRules)
      [Event.allow "user1" "news" 1000, Event.allow "user1" "news" 1059])
      "user1" "news" 1069).1 (key "user1" "news")).length
      = ([1000, 1059] : List Nat).countP (withinWindow 1069 60) + 1 ∧
    ([1000, 1059] : List Nat).filter (withinWindow 1069 60) = [1059] :=
  ⟨(Allow_window_slide (run (NewRateLimiterImpl newsRules)
      [Event.allow "user1" "news" 1000, Event.allow "user1" "news" 1059])
      "user1" "news" 1069 ⟨2, 60⟩ 1000 [1059] (by decide) (by decide) (by decide)
      (run_item_covered newsRules "user1" "news" ⟨2, 60⟩ (by decide) _ (by decide) (by decide)
        1069)
      (by decide) (by decide) (by decide)).1,
    (Allow_window_slide (run (NewRateLimiterImpl newsRules)
      [Event.allow "user1" "news" 1000, Event.allow "user1" "news" 1059])
      "user1" "news" 1069 ⟨2, 60⟩ 1000 [1059] (by decide) (by decide) (by decide)
      (run_item_covered newsRules "user1" "news" ⟨2, 60⟩ (by decide) _ (by decide) (by decide)
        1069)
      (by decide) (by decide) (by decide)).2.1,
    (Allow_window_slide (run (NewRateLimiterImpl newsRules)
      [Event.allow "user1" "news" 1000, Event.allow "user1" "news" 1059])
      "user1" "news" 1069 ⟨2, 60⟩ 1000 [1059] (by decide) (by decide) (by decide)
      (run_item_covered newsRules "user1" "news" ⟨2, 60⟩ (by decide) _ (by decide) (by decide)
        1069)
      (by decide) (by decide) (by decide)).2.2,
    by decide⟩

/-- C5 (unlimited category passthrough): when every call of a sequence is for a
category that is not a key of `Rules`, each call returns `(true, nil)` and the
whole sequence leaves the limiter state (cache, registry, rules) unchanged. -/
theorem runCalls_unrated (r : RateLimiterImpl) (calls : List Call)
    (hnone : ∀ c ∈ calls, r.Rules c.notificationType = none) :
    (∀ c ∈ calls, Allow r c.recipient c.notificationType c.now = (r, true, none)) ∧
    runCalls r calls = (r, calls.map (fun _ => (true, none))) := by
  have hone : ∀ c ∈ calls, Allow r c.recipient c.notificationType c.now = (r, true, none) := by
    intro c hc
    unfold Allow
    rw [hnone c hc]
  refine ⟨hone, ?_⟩
  induction calls with
  | nil => rfl
  | cons c cs ih =>
    have hc := hone c (List.mem_cons_self _ _)
    have hcs := ih (fun c hc => hnone c (List.mem_cons_of_mem _ hc))
      (fun c hc => hone c (List.mem_cons_of_mem _ hc))
    simp only [runCalls, hc, hcs, List.map_cons]

/-- Witness for C5: four `push` calls on the limiter whose `news` quota is used up. -/
theorem runCalls_unrated_witness :
    (∀ c ∈ [Call.mk "user1" "push" 1002, ⟨"user1", "push", 1002⟩, ⟨"user1", "push", 1003⟩,
        ⟨"user2", "push", 1003⟩],
      Allow newsLimiterFull c.recipient c.notificationType c.now
        = (newsLimiterFull, true, none)) ∧
    runCalls newsLimiterFull [⟨"user1", "push", 1002⟩, ⟨"user1", "push", 1002⟩,
        ⟨"user1", "push", 1003⟩, ⟨"user2", "push", 1003⟩]
      = (newsLimiterFull, [(true, none), (true, none), (true, none), (true, none)]) :=
  runCalls_unrated newsLimiterFull _ (by decide)

/-- C6 (independence across categories): for a recipient `X` and distinct categories
`A` and `B`, one call `Allow(X, A)` leaves the cache item (record and expiry) and
the mutex of the key of `(X, B)` unchanged; and after any sequence of calls for
`(X, A)`, at any instants, a call `Allow(X, B)` returns the same result and
stores the same item and mutex for its key as it does without those calls. -/
theorem Allow_independent_categories (r : RateLimiterImpl) (X A B : String) (hAB : A ≠ B)
    (instants : List Nat) (now : Nat) :
    (∀ t, (Allow r X A t).1.cache (key X B) = r.cache (key X B) ∧
      (Allow r X A t).1.mutexes (key X B) = r.mutexes (key X B)) ∧
    (Allow (runCalls r (instants.map (Call.mk X A))).1 X B now).2 = (Allow r X B now).2 ∧
    (Allow (runCalls r (instants.map (Call.mk X A))).1 X B now).1.cache (key X B)
      = (Allow r X B now).1.cache (key X B) ∧
    (Allow (runCalls r (instants.map (Call.mk X A))).1 X B now).1.mutexes (key X B)
      = (Allow r X B now).1.mutexes (key X B) := by
  have hkey : key X B ≠ key X A := fun h => hAB ((key_same_recipient X B A).mp h).symm
  refine ⟨fun t => Allow_frame r X A t (key X B) hkey, ?_⟩
  have hfr := runCalls_frame (key X B) (instants.map (Call.mk X A))
    (by
      intro c hc
      obtain ⟨t, _, rfl⟩ := List.mem_map.mp hc
      exact hkey) r
  exact Allow_local _ r X B now (by rw [runCalls_Rules]) hfr.1 hfr.2

/-- Witness for C6: `news` is exhausted for `user1` by three calls, and the first
`alerts` call for `user1` is decided as on the fresh limiter. -/
theorem Allow_independent_categories_witness :
    (Allow (runCalls twoLimiter ([1000, 1001, 1002].map (Call.mk "user1" "news"))).1
        "user1" "alerts" 1003).2 = (Allow twoLimiter "user1" "alerts" 1003).2 :=
  (Allow_independent_categories twoLimiter "user1" "news" "alerts" (by decide)
    [1000, 1001, 1002] 1003).2.1

/-- C7, as stated, fails: the distinct pairs `("a|b", "c")` and `("a", "b|c")` are
given the same key `"a|b|c"`. -/
theorem key_collision :
    (("a|b", "c") : String × String) ≠ ("a", "b|c") ∧ key "a|b" "c" = key "a" "b|c" := by
  decide

/-- C7 (amended): two pairs that are distinct as pairs get distinct keys
`recipient + "|" + notificationType` whenever neither recipient contains the
separator `|`, or neither category contains it. -/
theorem key_injective (recipient₁ category₁ recipient₂ category₂ : String)
    (hsep : ('|' ∉ recipient₁.data ∧ '|' ∉ recipient₂.data) ∨
      ('|' ∉ category₁.data ∧ '|' ∉ category₂.data))
    (hne : (recipient₁, category₁) ≠ (recipient₂, category₂)) :
    key recipient₁ category₁ ≠ key recipient₂ category₂ := by
  intro h
  have hd := congrArg String.data h
  rw [key_data, key_data] at hd
  have hboth : recipient₁.data = recipient₂.data ∧ category₁.data = category₂.data := by
    rcases hsep with ⟨h₁, h₂⟩ | ⟨h₁, h₂⟩
    · exact append_sep_inj_left _ _ _ _ _ h₁ h₂ hd
    · exact append_sep_inj_right _ _ _ _ _ h₁ h₂ hd
  exact hne (Prod.ext (String.ext hboth.1) (String.ext hboth.2))

/-- Witness for C7 (amended): `(user1, news)` and `(user2, news)`. -/
theorem key_injective_witness : key "user1" "news" ≠ key "user2" "news" :=
  key_injective "user1" "news" "user2" "news" (Or.inl (by decide)) (by decide)

/-- C8, as stated, fails for a rule whose `Interval` is `math.MinInt64`: under
`minIntervalRules` the key holds `[1000]` and the call at 1001 is denied
(`Limit = 1`); no stored timestamp is after `now - Interval`, yet `-Interval`
wraps around, nothing is pruned and the record written back is `[1000]`. -/
theorem Allow_denied_record_fails :
    minIntervalRules "news" = some { Limit := 1, Interval := minDuration } ∧
    record (run (NewRateLimiterImpl minIntervalRules) [Event.allow "user1" "news" 1000])
      (key "user1" "news") 1001 = [1000] ∧
    (Allow (run (NewRateLimiterImpl minIntervalRules) [Event.allow "user1" "news" 1000])
      "user1" "news" 1001).2.1 = false ∧
    stored (Allow (run (NewRateLimiterImpl minIntervalRules) [Event.allow "user1" "news" 1000])
      "user1" "news" 1001).1 (key "user1" "news") = [1000] ∧
    retained [1000] 1001 minDuration = [] := by
  decide

/-- C8 (amended): for a category with a rule whose `Interval` is not
`math.MinInt64` and a sorted record, when `Allow` denies at `now` the record
stored afterwards is exactly the old timestamps strictly after `now - Interval`,
in their original order; `now` is not added. -/
theorem Allow_denied_record (r : RateLimiterImpl) (recipient notificationType : String)
    (now : Nat) (rule : RateLimitRule) (hrule : r.Rules notificationType = some rule)
    (hI : rule.Interval ≠ minDuration)
    (hsorted : (record r (key recipient notificationType) now).Pairwise (· ≤ ·))
    (hdenied : (Allow r recipient notificationType now).2.1 = false) :
    stored (Allow r recipient notificationType now).1 (key recipient notificationType) =
      retained (record r (key recipient notificationType) now) now rule.Interval := by
  rw [Allow_of_rule r recipient notificationType now rule hrule, negDuration_of_ne hI,
    prune_eq_retained _ _ _ hsorted] at hdenied ⊢
  split
  · simp only [stored_Set]
  · next h => simp [h] at hdenied

/-- Witness for C8 (amended): the key `(user1, news)` holds `[1000, 1001]`; a call
at 1060 is admitted after 1000 is pruned, and a second call at 1060 is denied
with the record `[1001, 1060]` written back as it is. -/
theorem Allow_denied_record_witness :
    stored (Allow (Allow newsLimiterFull "user1" "news" 1060).1 "user1" "news" 1060).1
        (key "user1" "news") =
      retained (record (Allow newsLimiterFull "user1" "news" 1060).1 (key "user1" "news") 1060)
        1060 60 ∧
    stored (Allow (Allow newsLimiterFull "user1" "news" 1060).1 "user1" "news" 1060).1
        (key "user1" "news") = [1001, 1060] :=
  ⟨Allow_denied_record (Allow newsLimiterFull "user1" "news" 1060).1 "user1" "news" 1060
      ⟨2, 60⟩ (by decide) (by decide) (by decide) (by decide),
    by decide⟩

/-- C9 (sliding TTL on every call): for a rule with positive `Interval`, a call to
`Allow` at `now`, admitted or denied, leaves for the key an entry that expires at
`now + Interval`: at every reading `u` of the clock, `cache.Get` returns the
entry's record when `u <= now + Interval` and nothing when `u` is later; the
key's mutex is in the registry; and, after any later calls for other keys, a
sweep `DeleteExpired` at an instant `t <= now + Interval` removes neither the
key's item nor its mutex. -/
theorem Allow_refreshes_expiry (r : RateLimiterImpl) (recipient notificationType : String)
    (now : Nat) (rule : RateLimitRule) (hrule : r.Rules notificationType = some rule)
    (hpos : 0 < rule.Interval) (others : List Call)
    (hothers : ∀ c ∈ others,
      key recipient notificationType ≠ key c.recipient c.notificationType)
    (t : Nat) (ht : (t : Int) ≤ (now : Int) + rule.Interval) :
    (∀ u : Nat, (u : Int) ≤ maxUnixNano →
      gocache.Get (Allow r recipient notificationType now).1.cache
          (key recipient notificationType) u =
        if (u : Int) ≤ (now : Int) + rule.Interval then
          some (stored (Allow r recipient notificationType now).1
            (key recipient notificationType))
        else none) ∧
    (Allow r recipient notificationType now).1.mutexes (key recipient notificationType) = true ∧
    (DeleteExpired (runCalls (Allow r recipient notificationType now).1 others).1 t).cache
        (key recipient notificationType)
      = (Allow r recipient notificationType now).1.cache (key recipient notificationType) ∧
    (DeleteExpired (runCalls (Allow r recipient notificationType now).1 others).1 t).mutexes
        (key recipient notificationType) = true := by
  obtain ⟨⟨ts, hitem⟩, hmu⟩ := Allow_cache_key r recipient notificationType now rule hrule hpos
  obtain ⟨hfc, hfm⟩ := runCalls_frame (key recipient notificationType) others hothers
    (Allow r recipient notificationType now).1
  have hlive : gocache.expired
      { Object := ts, Expiration := (now : Int) + rule.Interval } t = false := by
    simp only [gocache.expired, decide_eq_false_iff_not]
    omega
  refine ⟨?_, hmu, ?_, ?_⟩
  · intro u _
    simp only [gocache.Get, stored, hitem]
    by_cases hu : (u : Int) ≤ (now : Int) + rule.Interval
    · rw [if_pos hu, if_neg (by omega)]
    · rw [if_neg hu, if_pos ⟨by omega, by omega⟩]
  · simp only [DeleteExpired, hfc, hitem, hlive]
    simp
  · simp only [DeleteExpired, hfc, hfm, hitem, hlive, hmu]
    simp

/-- Witness for C9: a denied call at instant 1002 on the full key leaves an entry
that `Get` returns at 1062 = 1002 + 60 and not at 1063; a call for another
recipient at 1030 and a sweep at 1062 leave the item and the mutex in place. -/
theorem Allow_refreshes_expiry_witness :
    gocache.Get (Allow newsLimiterFull "user1" "news" 1002).1.cache (key "user1" "news") 1062
      = some [1000, 1001] ∧
    gocache.Get (Allow newsLimiterFull "user1" "news" 1002).1.cache (key "user1" "news") 1063
      = none ∧
    (Allow newsLimiterFull "user1" "news" 1002).1.mutexes (key "user1" "news") = true ∧
    (DeleteExpired (runCalls (Allow newsLimiterFull "user1" "news" 1002).1
        [⟨"user2", "news", 1030⟩]).1 1062).cache (key "user1" "news")
      = (Allow newsLimiterFull "user1" "news" 1002).1.cache (key "user1" "news") ∧
    (DeleteExpired (runCalls (Allow newsLimiterFull "user1" "news" 1002).1
        [⟨"user2", "news", 1030⟩]).1 1062).mutexes (key "user1" "news") = true :=
  ⟨((Allow_refreshes_expiry newsLimiterFull "user1" "news" 1002 ⟨2, 60⟩ (by decide) (by decide)
      [⟨"user2", "news", 1030⟩] (by decide) 1062 (by decide)).1 1062 (by decide)).trans (by decide),
    ((Allow_refreshes_expiry newsLimiterFull "user1" "news" 1002 ⟨2, 60⟩ (by decide) (by decide)
      [⟨"user2", "news", 1030⟩] (by decide) 1062 (by decide)).1 1063 (by decide)).trans (by decide),
    (Allow_refreshes_expiry newsLimiterFull "user1" "news" 1002 ⟨2, 60⟩ (by decide) (by decide)
      [⟨"user2", "news", 1030⟩] (by decide) 1062 (by decide)).2⟩

/-- C10, as stated, fails for a rule whose `Interval` is zero: go-cache reads a zero
duration as "no expiration", so after a call at instant 1000 a sweep at instant
5000 keeps both the record and the mutex of the key. -/
theorem DeleteExpired_keeps_zero_interval :
    zeroIntervalRules "news" = some { Limit := 2, Interval := 0 } ∧
    (Allow (NewRateLimiterImpl zeroIntervalRules) "user1" "news" 1000).2.1 = true ∧
    (DeleteExpired (Allow (NewRateLimiterImpl zeroIntervalRules) "user1" "news" 1000).1
        5000).cache (key "user1" "news") = some { Object := [1000], Expiration := 0 } ∧
    (DeleteExpired (Allow (NewRateLimiterImpl zeroIntervalRules) "user1" "news" 1000).1
        5000).mutexes (key "user1" "news") = true := by
  decide

/-- C10 (amended): for a rule with positive `Interval`, after a call to `Allow` for a
key at `now` and any later calls for other keys, a sweep `DeleteExpired` at an
instant `t > now + Interval` removes both the key's cache item and the key's
mutex. -/
theorem DeleteExpired_reclaims_idle_key (r : RateLimiterImpl)
    (recipient notificationType : String) (now : Nat) (rule : RateLimitRule)
    (hrule : r.Rules notificationType = some rule) (hpos : 0 < rule.Interval)
    (others : List Call)
    (hothers : ∀ c ∈ others,
      key recipient notificationType ≠ key c.recipient c.notificationType)
    (t : Nat) (ht : (now : Int) + rule.Interval < (t : Int)) :
    (DeleteExpired (runCalls (Allow r recipient notificationType now).1 others).1 t).cache
        (key recipient notificationType) = none ∧
    (DeleteExpired (runCalls (Allow r recipient notificationType now).1 others).1 t).mutexes
        (key recipient notificationType) = false := by
  obtain ⟨⟨ts, hitem⟩, _⟩ := Allow_cache_key r recipient notificationType now rule hrule hpos
  obtain ⟨hfc, _⟩ := runCalls_frame (key recipient notificationType) others hothers
    (Allow r recipient notificationType now).1
  have hdead : gocache.expired
      { Object := ts, Expiration := (now : Int) + rule.Interval } t = true := by
    simp only [gocache.expired, decide_eq_true_eq]
    omega
  constructor
  · simp only [DeleteExpired, hfc, hitem, hdead]
    simp
  · simp only [DeleteExpired, hfc, hitem, hdead]
    simp

/-- Witness for C10 (amended): as in `TestRateLimiterEviction`, one call for
`(user1, news)` and a sweep 180 time units later under a 60-unit interval, with a
call for another recipient in between. -/
theorem DeleteExpired_reclaims_idle_key_witness :
    (DeleteExpired (runCalls (Allow newsLimiter "user1" "news" 1000).1
        [⟨"user2", "news", 1100⟩]).1 1180).cache (key "user1" "news") = none ∧
    (DeleteExpired (runCalls (Allow newsLimiter "user1" "news" 1000).1
        [⟨"user2", "news", 1100⟩]).1 1180).mutexes (key "user1" "news") = false :=
  DeleteExpired_reclaims_idle_key newsLimiter "user1" "news" 1000 ⟨2, 60⟩ (by decide)
    (by decide) [⟨"user2", "news", 1100⟩] (by decide) 1180 (by decide)

/-- C11 (eviction is transparent to admission): for every limiter state, hence every
state reached from an empty store by `Allow` calls and expiry sweeps, every
pair `(X, A)` and instant `now`, a call `Allow(X, A)` at `now` returns the same
result and leaves the same record for its key whether or not a sweep
`DeleteExpired` runs at an instant `s <= now` just before it (for a rated
category the whole cache item is the same).  In particular, when the sweep has
left no item for the key and the rule has `Limit >= 1`, the call is admitted,
stores a record of length 1, and returns and stores what a first call on a
fresh limiter does. -/
theorem Allow_after_sweep (r : RateLimiterImpl) (X A : String) (s now : Nat) (hs : s ≤ now) :
    (Allow (DeleteExpired r s) X A now).2 = (Allow r X A now).2 ∧
    record (Allow (DeleteExpired r s) X A now).1 (key X A) now
      = record (Allow r X A now).1 (key X A) now ∧
    (r.Rules A ≠ none →
      (Allow (DeleteExpired r s) X A now).1.cache (key X A)
        = (Allow r X A now).1.cache (key X A)) ∧
    (∀ rule, r.Rules A = some rule → 1 ≤ rule.Limit →
      (DeleteExpired r s).cache (key X A) = none →
      (Allow (DeleteExpired r s) X A now).2 = (true, none) ∧
      stored (Allow (DeleteExpired r s) X A now).1 (key X A) = [now] ∧
      (stored (Allow (DeleteExpired r s) X A now).1 (key X A)).length = 1 ∧
      (Allow (DeleteExpired r s) X A now).2 = (Allow (NewRateLimiterImpl r.Rules) X A now).2 ∧
      (Allow (DeleteExpired r s) X A now).1.cache (key X A)
        = (Allow (NewRateLimiterImpl r.Rules) X A now).1.cache (key X A)) := by
  have hrec := record_DeleteExpired r (key X A) s now hs
  refine ⟨?_, ?_, ?_, ?_⟩
  · cases hrule : r.Rules A with
    | none =>
      have h1 : (DeleteExpired r s).Rules A = none := hrule
      unfold Allow
      rw [hrule, h1]
    | some rule =>
      rw [Allow_of_rule r X A now rule hrule,
        Allow_of_rule (DeleteExpired r s) X A now rule hrule, hrec]
      split <;> rfl
  · cases hrule : r.Rules A with
    | none =>
      have h1 : (DeleteExpired r s).Rules A = none := hrule
      have h2 : (Allow r X A now).1 = r := by unfold Allow; rw [hrule]
      have h3 : (Allow (DeleteExpired r s) X A now).1 = DeleteExpired r s := by
        unfold Allow; rw [h1]
      rw [h2, h3, hrec]
    | some rule =>
      rw [Allow_of_rule r X A now rule hrule,
        Allow_of_rule (DeleteExpired r s) X A now rule hrule, hrec]
      split <;> simp [record, gocache.Get, gocache.Set]
  · intro hrated
    cases hrule : r.Rules A with
    | none => exact absurd hrule hrated
    | some rule =>
      rw [Allow_of_rule r X A now rule hrule,
        Allow_of_rule (DeleteExpired r s) X A now rule hrule, hrec]
      split <;> simp [gocache.Set]
  · intro rule hrule hL hnone
    have hfresh := Allow_fresh_key (DeleteExpired r s) X A now rule hrule hL
      (record_of_none _ _ now hnone)
    have hnew := Allow_local_item (DeleteExpired r s) (NewRateLimiterImpl r.Rules) X A now rfl
      (by rw [hnone]; rfl)
    exact ⟨hfresh.1, hfresh.2, by rw [hfresh.2]; rfl, hnew.1, hnew.2⟩

/-- Witness for C11: the key `(user1, news)` is full after calls at 1000 and 1001 and
its item expires at 1061; a sweep at 1100 evicts it, and the call at 1100 is
decided the same with and without that sweep. -/
theorem Allow_after_sweep_witness :
    (Allow (DeleteExpired newsLimiterFull 1100) "user1" "news" 1100).2
      = (Allow newsLimiterFull "user1" "news" 1100).2 ∧
    (Allow (DeleteExpired newsLimiterFull 1100) "user1" "news" 1100).2 = (true, none) ∧
    stored (Allow (DeleteExpired newsLimiterFull 1100) "user1" "news" 1100).1
      (key "user1" "news") = [1100] :=
  ⟨(Allow_after_sweep newsLimiterFull "user1" "news" 1100 1100 (by decide)).1,
    ((Allow_after_sweep newsLimiterFull "user1" "news" 1100 1100 (by decide)).2.2.2
      ⟨2, 60⟩ (by decide) (by decide) (by decide)).1,
    ((Allow_after_sweep newsLimiterFull "user1" "news" 1100 1100 (by decide)).2.2.2
      ⟨2, 60⟩ (by decide) (by decide) (by decide)).2.1⟩

/-- C12 (the in-memory engine never reports an error): for every limiter state, rule
table, recipient, category and instant, the error component of the result of
`Allow` is `nil`. -/
theorem Allow_error_nil (r : RateLimiterImpl) (recipient notificationType : String)
    (now : Nat) : (Allow r recipient notificationType now).2.2 = none := by
  cases hrule : r.Rules notificationType with
  | none => unfold Allow; rw [hrule]
  | some rule =>
    rw [Allow_of_rule r recipient notificationType now rule hrule]
    split <;> rfl

/-- C13 (dispatch policy of `SendNotification`): for every limiter, whose `Allow`
returns `(allowed, err)`, `SendNotification` returns a non-nil error if and only
if `err` is nil and `allowed` is false; and whenever `err` is non-nil it logs
the error, prints the notification and returns nil, whatever `allowed` is. -/
theorem SendNotification_policy {σ : Type} (rateLimiter : RateLimiter σ) (s : σ)
    (recipient notificationType message : String) :
    ((SendNotification rateLimiter s recipient notificationType message).2.err.isSome = true ↔
      ((rateLimiter.Allow s recipient notificationType).2.2 = none ∧
        (rateLimiter.Allow s recipient notificationType).2.1 = false)) ∧
    ((rateLimiter.Allow s recipient notificationType).2.2.isSome = true →
      (SendNotification rateLimiter s recipient notificationType message).2.err = none ∧
      (SendNotification rateLimiter s recipient notificationType message).2.printed =
        ["Sending " ++ notificationType ++ " notification to " ++ recipient
          ++ ": " ++ message ++ "\n"] ∧
      (SendNotification rateLimiter s recipient notificationType message).2.logged.length = 1) := by
  unfold SendNotification
  rcases hres : rateLimiter.Allow s recipient notificationType with ⟨s', allowed, err⟩
  cases err with
  | some e => simp
  | none => cases allowed <;> simp

/-- Witness for C13: the in-memory limiter denies the third `news` call for `user1`,
so `SendNotification` returns the quota error; a limiter that fails with
`allowed = false` does not stop the notification. -/
theorem SendNotification_policy_witness :
    (SendNotification (inMemory 1002) newsLimiterFull "user1" "news" "hello").2.err
      = some "rate limit exceeded for news notifications to user1" ∧
    (SendNotification failingLimiter () "user1" "news" "hello").2.err = none ∧
    (SendNotification failingLimiter () "user1" "news" "hello").2.printed
      = ["Sending news notification to user1: hello\n"] :=
  ⟨by decide,
    ((SendNotification_policy failingLimiter () "user1" "news" "hello").2 (by decide)).1,
    by decide⟩

/-- C15 (the binary-search prune equals the linear filter): for a record sorted
ascending and the cutoff `now - Interval`, the record `Allow` keeps is the
suffix starting at the index `sort.Search` returns, it is exactly the list of
the record's timestamps strictly after the cutoff, in order, every timestamp
before that index is at or before the cutoff, and a timestamp equal to
`now - Interval` is not kept. -/
theorem prune_refines_filter (timestamps : List Nat) (now : Nat) (interval : Int)
    (hs : timestamps.Pairwise (· ≤ ·)) :
    prune timestamps ((now : Int) + (-interval)) = timestamps.drop
      (Search timestamps.length
        (fun i => After (timestamps.getD i 0) ((now : Int) + (-interval)))) ∧
    prune timestamps ((now : Int) + (-interval)) = retained timestamps now interval ∧
    (∀ t ∈ timestamps.take
        (Search timestamps.length
          (fun i => After (timestamps.getD i 0) ((now : Int) + (-interval)))),
      (t : Int) ≤ (now : Int) - interval) ∧
    (∀ t ∈ timestamps, (t : Int) = (now : Int) - interval →
      t ∉ prune timestamps ((now : Int) + (-interval))) := by
  refine ⟨prune_eq_drop _ _, prune_eq_retained _ _ _ hs, ?_, ?_⟩
  · intro t ht
    obtain ⟨hle, hlo, _⟩ := Search_split timestamps ((now : Int) + (-interval)) hs
    obtain ⟨k, hk, rfl⟩ := List.getElem_of_mem ht
    rw [List.length_take] at hk
    have hk1 : k < Search timestamps.length
        (fun i => After (timestamps.getD i 0) ((now : Int) + (-interval))) := by omega
    have hk2 : k < timestamps.length := by omega
    have := hlo k hk1
    rw [List.getD_eq_getElem _ _ hk2] at this
    rw [List.getElem_take]
    simp only [After, decide_eq_false_iff_not] at this
    omega
  · intro t _ heq hmem
    rw [prune_eq_retained _ _ _ hs] at hmem
    have := (List.mem_filter.mp hmem).2
    simp only [decide_eq_true_eq] at this
    omega

/-- Witness for C15: a sorted record with a timestamp exactly on the cutoff; at
`now = 1069` under a 60-unit interval, `1000` and `1009` are dropped and `1059`
is kept. -/
theorem prune_refines_filter_witness :
    ([1000, 1009, 1059] : List Nat).Pairwise (· ≤ ·) ∧
    prune [1000, 1009, 1059] (((1069 : Nat) : Int) + (-60))
      = retained [1000, 1009, 1059] 1069 60 ∧
    retained [1000, 1009, 1059] 1069 60 = [1059] :=
  ⟨by decide, (prune_refines_filter [1000, 1009, 1059] 1069 60 (by decide)).2.1, by decide⟩

/-- C16 (sortedness invariant): in every state reached from an empty store by `Allow`
calls and expiry sweeps made at non-decreasing instants, the stored record of
every key is sorted in non-decreasing order. -/
theorem run_stored_sorted (rules : String → Option RateLimitRule) (events : List Event)
    (hmono : (events.map Event.time).Pairwise (· ≤ ·)) (k : String) :
    (stored (run (NewRateLimiterImpl rules) events) k).Pairwise (· ≤ ·) := by
  obtain ⟨bound, hbound⟩ := exists_time_bound events
  exact ((SortedInv.after_run events (NewRateLimiterImpl rules) 0 bound (SortedInv.initial rules 0)
    hmono (fun _ _ => Nat.zero_le _) hbound (Nat.zero_le _)) k).1

/-- Witness for C16: the scenario of `TestRateLimiterPrune` with a sweep, under
`twoRules`. -/
theorem run_stored_sorted_witness :
    (stored (run (NewRateLimiterImpl twoRules)
      [Event.allow "user1" "news" 1000, Event.allow "user1" "news" 1059, Event.sweep 1060,
        Event.allow "user1" "news" 1069, Event.allow "user1" "news" 1069])
      (key "user1" "news")).Pairwise (· ≤ ·) :=
  run_stored_sorted twoRules _ (by decide) (key "user1" "news")

/-- C17, as stated, fails when two pairs share a key: under `collidingRules`, where
`"c"` has `Limit = 1`, two calls for `("a", "b|c")` and one for `("a|b", "c")`,
all at instant 1000 from an empty store, leave under the key of `("a|b", "c")` a
record of length 2, written by the (denied) call for `("a|b", "c")`. -/
theorem stored_exceeds_limit_on_collision :
    collidingRules "c" = some { Limit := 1, Interval := 100 } ∧
    (Allow (run (NewRateLimiterImpl collidingRules)
      [Event.allow "a" "b|c" 1000, Event.allow "a" "b|c" 1000]) "a|b" "c" 1000).2.1 = false ∧
    stored (run (NewRateLimiterImpl collidingRules)
      [Event.allow "a" "b|c" 1000, Event.allow "a" "b|c" 1000, Event.allow "a|b" "c" 1000])
      (key "a|b" "c") = [1000, 1000] := by
  decide

/-- C17 (amended): for a rule with `Limit >= 1` for category `A`, the record stored by
an admitted call `Allow(X, A)` has length at most `Limit` whatever the state
before; and in every state reached from an empty store by `Allow` calls and
expiry sweeps in which every call that computes the key of `(X, A)` is a call
for category `A`, the stored record of that key has length at most `Limit`. -/
theorem stored_length_le_limit (rules : String → Option RateLimitRule) (X A : String)
    (rule : RateLimitRule) (hrule : rules A = some rule) (hL : 1 ≤ rule.Limit) :
    (∀ (r : RateLimiterImpl) (now : Nat), r.Rules A = some rule →
      (Allow r X A now).2.1 = true →
      ((stored (Allow r X A now).1 (key X A)).length : Int) ≤ rule.Limit) ∧
    (∀ events : List Event, (∀ e ∈ events, keyRespected X A e = true) →
      ((stored (run (NewRateLimiterImpl rules) events) (key X A)).length : Int)
        ≤ rule.Limit) := by
  constructor
  · intro r now hr hadm
    rw [Allow_of_rule r X A now rule hr] at hadm ⊢
    split
    · next h => rw [if_pos h] at hadm; exact absurd hadm Bool.false_ne_true
    · next h =>
      rw [stored_Set, List.length_append, List.length_singleton]
      push_cast
      omega
  · intro events hkeys
    have := stored_length_run X A rule rule.Limit.toNat (by omega) events
      (NewRateLimiterImpl rules) hrule (by simp [stored, NewRateLimiterImpl]) hkeys
    omega

/-- Witness for C17 (amended): `(user1, news)` under `twoRules`, after four calls and
a call for another category. -/
theorem stored_length_le_limit_witness :
    ((stored (run (NewRateLimiterImpl twoRules)
      [Event.allow "user1" "news" 1000, Event.allow "user1" "alerts" 1001,
        Event.allow "user1" "news" 1002, Event.allow "user1" "news" 1003,
        Event.allow "user1" "news" 1070]) (key "user1" "news")).length : Int) ≤ 2 :=
  (stored_length_le_limit twoRules "user1" "news" ⟨2, 60⟩ (by decide) (by decide)).2
    [Event.allow "user1" "news" 1000, Event.allow "user1" "alerts" 1001,
      Event.allow "user1" "news" 1002, Event.allow "user1" "news" 1003,
      Event.allow "user1" "news" 1070] (by decide)

/-- C18 (lock and record lifetimes are coupled): in every state reached from an empty
limiter by sequential `Allow` calls and expiry sweeps, a key holds a mutex in
the registry if and only if the cache holds an item for it. -/
theorem run_mutex_iff_item (rules : String → Option RateLimitRule) (events : List Event)
    (k : String) :
    (run (NewRateLimiterImpl rules) events).mutexes k = true ↔
      (run (NewRateLimiterImpl rules) events).cache k ≠ none :=
  coupled_run events (NewRateLimiterImpl rules) (by intro k; simp [NewRateLimiterImpl]) k

/-- C19, as stated, fails when two pairs share a key: under `collidingZeroRules`,
where `"c"` has `Limit = 0`, after one call for `("a", "b|c")` at 1000 from an
empty store, the call for `("a|b", "c")` at 1001 is denied and leaves the
non-empty record `[1000]` under its key. -/
theorem nonpositive_limit_record_nonempty :
    collidingZeroRules "c" = some { Limit := 0, Interval := 100 } ∧
    (Allow (run (NewRateLimiterImpl collidingZeroRules) [Event.allow "a" "b|c" 1000])
      "a|b" "c" 1001).2.1 = false ∧
    stored (Allow (run (NewRateLimiterImpl collidingZeroRules) [Event.allow "a" "b|c" 1000])
      "a|b" "c" 1001).1 (key "a|b" "c") = [1000] := by
  decide

/-- C19 (amended): for a category `A` whose rule has `Limit <= 0`, in every state
reached from an empty store by `Allow` calls and expiry sweeps, a call
`Allow(X, A)` is denied and leaves a cache item and a mutex for its key; and
when every earlier call that computes the key of `(X, A)` is a call for
category `A`, the stored record of the key is empty before and after the
call. -/
theorem Allow_nonpositive_limit (rules : String → Option RateLimitRule) (events : List Event)
    (X A : String) (rule : RateLimitRule) (now : Nat) (hrule : rules A = some rule)
    (hL : rule.Limit ≤ 0) :
    (Allow (run (NewRateLimiterImpl rules) events) X A now).2 = (false, none) ∧
    (Allow (run (NewRateLimiterImpl rules) events) X A now).1.cache (key X A) ≠ none ∧
    (Allow (run (NewRateLimiterImpl rules) events) X A now).1.mutexes (key X A) = true ∧
    ((∀ e ∈ events, keyRespected X A e = true) →
      stored (run (NewRateLimiterImpl rules) events) (key X A) = [] ∧
      stored (Allow (run (NewRateLimiterImpl rules) events) X A now).1 (key X A) = []) := by
  have hrule' : (run (NewRateLimiterImpl rules) events).Rules A = some rule := by
    rw [run_Rules]; exact hrule
  rw [Allow_nonpositive _ X A now rule hrule' hL]
  refine ⟨rfl, by simp [gocache.Set], by simp [LoadOrStore], ?_⟩
  intro hkeys
  have hlen := stored_length_run X A rule 0 (by simpa using hL) events
    (NewRateLimiterImpl rules) hrule (by simp [stored, NewRateLimiterImpl]) hkeys
  have hempty : stored (run (NewRateLimiterImpl rules) events) (key X A) = [] :=
    List.eq_nil_of_length_eq_zero (by omega)
  refine ⟨hempty, ?_⟩
  rw [stored_Set]
  have h1 := prune_length_le (record (run (NewRateLimiterImpl rules) events) (key X A) now)
    ((now : Int) + negDuration rule.Interval)
  have h2 := record_length_le (run (NewRateLimiterImpl rules) events) (key X A) now
  rw [hempty, List.length_nil] at h2
  exact List.eq_nil_of_length_eq_zero (by omega)

/-- Witness for C19 (amended): `"c"` has `Limit = 0` under `collidingZeroRules`; the
third call for `(user1, c)` is denied like the first two and leaves an item
with an empty record. -/
theorem Allow_nonpositive_limit_witness :
    (Allow (run (NewRateLimiterImpl collidingZeroRules)
      [Event.allow "user1" "c" 1000, Event.allow "user1" "c" 1001]) "user1" "c" 1002).2
      = (false, none) ∧
    (Allow (run (NewRateLimiterImpl collidingZeroRules)
      [Event.allow "user1" "c" 1000, Event.allow "user1" "c" 1001]) "user1" "c" 1002).1.cache
      (key "user1" "c") ≠ none ∧
    stored (Allow (run (NewRateLimiterImpl collidingZeroRules)
      [Event.allow "user1" "c" 1000, Event.allow "user1" "c" 1001]) "user1" "c" 1002).1
      (key "user1" "c") = [] :=
  ⟨(Allow_nonpositive_limit collidingZeroRules
      [Event.allow "user1" "c" 1000, Event.allow "user1" "c" 1001] "user1" "c" ⟨0, 100⟩ 1002
      (by decide) (by decide)).1,
    (Allow_nonpositive_limit collidingZeroRules
      [Event.allow "user1" "c" 1000, Event.allow "user1" "c" 1001] "user1" "c" ⟨0, 100⟩ 1002
      (by decide) (by decide)).2.1,
    ((Allow_nonpositive_limit collidingZeroRules
      [Event.allow "user1" "c" 1000, Event.allow "user1" "c" 1001] "user1" "c" ⟨0, 100⟩ 1002
      (by decide) (by decide)).2.2.2 (by decide)).2⟩

/-- C20 (zero interval disables limiting): under a rule with `Interval = 0` and
`Limit >= 1`, after any sequence of `Allow` calls and expiry sweeps from an
empty store, a call made at an instant `now` not earlier than theirs (the
instants being non-decreasing, possibly equal) is admitted and the record
stored afterwards holds exactly the one timestamp `now`. -/
theorem Allow_zero_interval (rules : String → Option RateLimitRule) (events : List Event)
    (X A : String) (rule : RateLimitRule) (now : Nat) (hrule : rules A = some rule)
    (hT : rule.Interval = 0) (hL : 1 ≤ rule.Limit)
    (hmono : (events.map Event.time ++ [now]).Pairwise (· ≤ ·)) :
    (Allow (run (NewRateLimiterImpl rules) events) X A now).2 = (true, none) ∧
    stored (Allow (run (NewRateLimiterImpl rules) events) X A now).1 (key X A) = [now] := by
  obtain ⟨hsorted, _, hle⟩ := List.pairwise_append.mp hmono
  have hinv := SortedInv.after_run events (NewRateLimiterImpl rules) 0 now
    (SortedInv.initial rules 0) hsorted (fun _ _ => Nat.zero_le _)
    (fun e he => hle e.time (List.mem_map_of_mem _ he) now (List.mem_singleton_self _))
    (Nat.zero_le _)
  have hrule' : (run (NewRateLimiterImpl rules) events).Rules A = some rule := by
    rw [run_Rules]; exact hrule
  have hrs := record_sorted _ (key X A) now (hinv (key X A)).1
  have hret : retained (record (run (NewRateLimiterImpl rules) events) (key X A) now) now
      rule.Interval = [] := by
    apply retained_eq_nil
    intro x hx
    have := (hinv (key X A)).2 x (mem_record _ _ now x hx)
    rw [hT]
    omega
  rw [Allow_of_rule _ X A now rule hrule', hT, negDuration_zero, ← hT,
    prune_eq_retained _ _ _ hrs, hret]
  have hlt : ¬ ((([] : List Nat).length : Int) ≥ rule.Limit) := by
    simp only [List.length_nil]; omega
  rw [if_neg hlt]
  exact ⟨rfl, by rw [stored_Set]; rfl⟩

/-- Witness for C20: four calls for `(user1, news)` under `{Limit: 2, Interval: 0}`,
three of them at the same instant. -/
theorem Allow_zero_interval_witness :
    (Allow (run (NewRateLimiterImpl zeroIntervalRules)
      [Event.allow "user1" "news" 1000, Event.allow "user1" "news" 1000,
        Event.allow "user1" "news" 1000]) "user1" "news" 1000).2 = (true, none) ∧
    stored (Allow (run (NewRateLimiterImpl zeroIntervalRules)
      [Event.allow "user1" "news" 1000, Event.allow "user1" "news" 1000,
        Event.allow "user1" "news" 1000]) "user1" "news" 1000).1 (key "user1" "news")
      = [1000] :=
  Allow_zero_interval zeroIntervalRules _ "user1" "news" ⟨2, 0⟩ 1000 (by decide) (by decide)
    (by decide) (by decide)

end Modak
